import Mathlib

/-!
Verification of the chitin-core consensus, scoring, storage and trust
algorithms.  Rust `f64` arithmetic is modelled by exact rationals (`ℚ`),
`u64`/`usize` by `ℕ`, UUIDs by `ℕ`, and fallible or panicking code by
`Option`/`Except`.  Every definition is a direct translation of the
corresponding Rust item, keeping the source names.
-/

namespace Chitin

/-! ## crates/chitin-consensus/src/epoch.rs -/

/-- `EpochPhase` from epoch.rs: the current phase of an epoch. -/
inductive EpochPhase where
  | Open
  | Scoring
  | Committing
  | Closed
deriving DecidableEq, Repr

/-- `EpochManager` from epoch.rs. -/
structure EpochManager where
  current_epoch : ℕ
  phase : EpochPhase
  blocks_per_epoch : ℕ
deriving DecidableEq, Repr

/-- `EpochManager::new`. -/
def EpochManager.new (blocks_per_epoch : ℕ) : EpochManager :=
  { current_epoch := 0, phase := .Open, blocks_per_epoch := blocks_per_epoch }

/-- `EpochManager::advance_block`: epoch := block / blocks_per_epoch and the
phase is chosen from the fraction `(block % N) / N` (`<0.50` Open,
`<0.75` Scoring, else Committing).  The Rust code computes the fraction in
`f64`; here it is the exact rational. -/
def EpochManager.advance_block (m : EpochManager) (block : ℕ) : EpochManager :=
  let new_epoch := block / m.blocks_per_epoch
  let block_in_epoch := block % m.blocks_per_epoch
  let fraction : ℚ := (block_in_epoch : ℚ) / (m.blocks_per_epoch : ℚ)
  { m with
    current_epoch := new_epoch,
    phase :=
      if fraction < 1/2 then .Open
      else if fraction < 3/4 then .Scoring
      else .Committing }

/-! ## crates/chitin-core error type (error.rs, variants used here) -/

/-- The `ChitinError` variants reached by the code under verification. -/
inductive ChitinError where
  | Consensus : String → ChitinError
  | Storage : String → ChitinError
  | Serialization : String → ChitinError
deriving DecidableEq, Repr

/-! ## crates/chitin-consensus/src/metagraph.rs -/

/-- `ReefMetagraph` from chitin-core, restricted to the fields the
metagraph manager reads (`epoch`); the remaining payload is abstracted
as an opaque-to-the-manager natural tag `payload`. -/
structure ReefMetagraph where
  epoch : ℕ
  block : ℕ
  payload : ℕ
deriving DecidableEq, Repr

/-- `MetagraphManager` from metagraph.rs. -/
structure MetagraphManager where
  current : Option ReefMetagraph
  last_epoch : Option ℕ
deriving DecidableEq, Repr

/-- `MetagraphManager::new`. -/
def MetagraphManager.new : MetagraphManager :=
  { current := none, last_epoch := none }

/-- `MetagraphManager::update`: returns the `Result` together with the
post-state of the manager (Rust mutates `self`). -/
def MetagraphManager.update (m : MetagraphManager) (metagraph : ReefMetagraph) :
    Except ChitinError Unit × MetagraphManager :=
  match m.last_epoch with
  | some last =>
    if metagraph.epoch ≤ last then
      (Except.error (ChitinError.Consensus
          ("Stale epoch: got " ++ Nat.repr metagraph.epoch ++
            " but last was " ++ Nat.repr last)), m)
    else
      (Except.ok (), { current := some metagraph, last_epoch := some metagraph.epoch })
  | none =>
      (Except.ok (), { current := some metagraph, last_epoch := some metagraph.epoch })

/-- `MetagraphManager::current`. -/
def MetagraphManager.current? (m : MetagraphManager) : Option ReefMetagraph :=
  m.current

/-! ## crates/chitin-core/src/polyp.rs — data model -/

/-- `PolypState` from polyp.rs. -/
inductive PolypState where
  | Draft
  | Soft
  | UnderReview
  | Approved
  | Hardened
  | Rejected
  | Molted (successor_id : ℕ)
deriving DecidableEq, Repr

/-- `EmbeddingModelId` (fields used by scoring). -/
structure EmbeddingModelId where
  provider : String
  name : String
  dimensions : ℕ
deriving DecidableEq, Repr

/-- `VectorEmbedding` (fields used by scoring); `f32` values as `ℚ`. -/
structure VectorEmbedding where
  values : List ℚ
  model_id : EmbeddingModelId
deriving DecidableEq, Repr

/-- `Payload` from polyp.rs. -/
structure Payload where
  content : String
  content_type : String
  language : Option String
deriving DecidableEq, Repr

/-- `NodeIdentity` (fields used by scoring); 32-byte keys as byte lists. -/
structure NodeIdentity where
  coldkey : List ℕ
  hotkey : List ℕ
deriving DecidableEq, Repr

/-- `SourceAttribution` (fields used by scoring). -/
structure SourceAttribution where
  source_url : Option String
  title : Option String
deriving DecidableEq, Repr

/-- `PipelineStep` from provenance.rs (only its presence matters to scoring). -/
structure PipelineStep where
  name : String
  version : String
deriving DecidableEq, Repr

/-- `ProcessingPipeline` (fields used by scoring). -/
structure ProcessingPipeline where
  steps : List PipelineStep
  duration_ms : ℕ
deriving DecidableEq, Repr

/-- `Provenance` (fields used by scoring). -/
structure Provenance where
  creator : NodeIdentity
  source : SourceAttribution
  pipeline : ProcessingPipeline
deriving DecidableEq, Repr

/-- `ZkProof` (fields used by scoring). -/
structure ZkProof where
  proof_type : String
  proof_value : String
deriving DecidableEq, Repr

/-- `PolypSubject` from polyp.rs. -/
structure PolypSubject where
  payload : Payload
  vector : VectorEmbedding
  provenance : Provenance
deriving DecidableEq, Repr

/-- `Polyp` from polyp.rs (fields used by scoring, storage and signing);
timestamps as `ℕ`, the optional ed25519 signature as an optional byte list. -/
structure Polyp where
  id : ℕ
  state : PolypState
  subject : PolypSubject
  proof : ZkProof
  created_at : ℕ
  signature : Option (List ℕ)
deriving DecidableEq, Repr

/-- `Polyp::verify_signature`.  The ed25519 primitive
(`crypto::verify_signature`) and the SHA-256 digest (`signable_bytes`)
are external cryptographic primitives; they enter the model as explicit
function parameters `cryptoVerify` and `signable`. -/
def Polyp.verify_signature
    (cryptoVerify : List ℕ → List ℕ → List ℕ → Except ChitinError Bool)
    (signable : Polyp → List ℕ)
    (p : Polyp) (public_key : List ℕ) : Except ChitinError Bool :=
  match p.signature with
  | none => Except.ok false
  | some sig => cryptoVerify public_key (signable p) sig

/-! ## crates/chitin-consensus/src/scoring.rs -/

/-- `PolypScores` from chitin-core. -/
structure PolypScores where
  zk_validity : ℚ
  semantic_quality : ℚ
  novelty : ℚ
  source_credibility : ℚ
  embedding_quality : ℚ
deriving DecidableEq, Repr

/-- `score_zk_validity`: 0.5 for placeholder proofs (empty or all ASCII
`'0'` bytes), else 0.8. -/
def score_zk_validity (polyp : Polyp) : ℚ :=
  let proof_bytes := polyp.proof.proof_value.data
  let is_placeholder := proof_bytes.isEmpty || proof_bytes.all (fun b => b == '0')
  if is_placeholder then 1/2 else 4/5

/-- `score_semantic_quality`: content-length step function.  Rust
`content.len()` is the UTF-8 byte count of the string, `utf8ByteSize`
here (not the character count). -/
def score_semantic_quality (polyp : Polyp) : ℚ :=
  let len := polyp.subject.payload.content.utf8ByteSize
  if len ≤ 10 then 1/10
  else if len ≤ 50 then 3/10
  else if len ≤ 200 then 6/10
  else if len ≤ 2000 then 8/10
  else 9/10

/-- `score_novelty`: zero vector scores 0; otherwise `variance * 10`
clamped into `[0, 1]` (Rust `.min(1.0).max(0.0)`). -/
def score_novelty (polyp : Polyp) : ℚ :=
  let values := polyp.subject.vector.values
  if values.isEmpty || values.all (fun v => v == 0) then 0
  else
    let n : ℚ := values.length
    let mean : ℚ := values.sum / n
    let variance : ℚ := (values.map (fun v => (v - mean) * (v - mean))).sum / n
    max (min (variance * 10) 1) 0

/-- The `source_url` bonus of `score_source_credibility`: `+0.2` when
`Some` and non-empty. -/
def urlBonus : Option String → ℚ
  | some url => if url.isEmpty then 0 else 2/10
  | none => 0

/-- The `title` bonus of `score_source_credibility`: `+0.1` when `Some`
and non-empty. -/
def titleBonus : Option String → ℚ
  | some t => if t.isEmpty then 0 else 1/10
  | none => 0

/-- `score_source_credibility`: provenance completeness bonuses, capped at 1. -/
def score_source_credibility (polyp : Polyp) : ℚ :=
  let prov := polyp.subject.provenance
  let creator_bonus : ℚ :=
    if prov.creator.coldkey ≠ List.replicate 32 0 then 2/10 else 0
  let step_bonus : ℚ := min ((prov.pipeline.steps.length : ℚ) * (1/10)) (2/10)
  min (urlBonus prov.source.source_url + titleBonus prov.source.title +
        creator_bonus + step_bonus) 1

/-- `score_embedding_quality`: dimension match + L2-normalization check +
non-zero check, capped at 1.  The Rust test `|sqrt(Σ v²) − 1| < 0.1` is
expressed without the square root: for a non-negative sum of squares `s`,
`|√s − 1| < 1/10 ↔ 9/10 < √s < 11/10 ↔ 81/100 < s < 121/100`, by
monotonicity of squaring on non-negatives. -/
def score_embedding_quality (polyp : Polyp) : ℚ :=
  let vector := polyp.subject.vector
  let values := vector.values
  if values.isEmpty || values.all (fun v => v == 0) then 0
  else
    let dim_bonus : ℚ :=
      if values.length = vector.model_id.dimensions then 1/2 else 0
    let sum_sq : ℚ := (values.map (fun v => v * v)).sum
    let norm_bonus : ℚ :=
      if 81/100 < sum_sq ∧ sum_sq < 121/100 then 3/10 else 0
    let nonzero_bonus : ℚ :=
      if values.any (fun v => v != 0) then 2/10 else 0
    min (dim_bonus + norm_bonus + nonzero_bonus) 1

/-- `score_polyp_multi_dimensional` from scoring.rs. -/
def score_polyp_multi_dimensional (polyp : Polyp) : PolypScores :=
  { zk_validity := score_zk_validity polyp
    semantic_quality := score_semantic_quality polyp
    novelty := score_novelty polyp
    source_credibility := score_source_credibility polyp
    embedding_quality := score_embedding_quality polyp }

/-! ## crates/chitin-consensus/src/weights.rs and bonds.rs -/

/-- `WeightMatrix` (the dense weight store read by `update_ema`). -/
structure WeightMatrix where
  weights : List (List ℚ)
deriving DecidableEq, Repr

/-- `BondMatrix` from bonds.rs. -/
structure BondMatrix where
  bonds : List (List ℚ)
deriving DecidableEq, Repr

/-- `BondMatrix::new`: zero-initialized `validators × corals` matrix. -/
def BondMatrix.new (validators corals : ℕ) : BondMatrix :=
  { bonds := List.replicate validators (List.replicate corals 0) }

/-- Inner loop of `BondMatrix::update_ema` for one bond row `brow` (at
validator index `i`), walking coral indices from `j` upward.  The Rust
code indexes `weights.weights[i][j]` unchecked, so a weight row shorter
than the bond row is an index panic, modelled as `none`;
`consensus_weights` is read with an explicit bounds check defaulting
to 0. -/
def updateEmaRow (alpha bond_penalty : ℚ) (consensus_weights : List ℚ) :
    List ℚ → List ℚ → ℕ → Option (List ℚ)
  | [], _, _ => some []
  | _ :: _, [], _ => none
  | b_prev :: brest, w_ij :: wrest, j =>
      let consensus_j := consensus_weights.getD j 0
      let ema := alpha * w_ij + (1 - alpha) * b_prev
      let penalty := bond_penalty * |w_ij - consensus_j|
      (updateEmaRow alpha bond_penalty consensus_weights brest wrest (j + 1)).map
        (fun rest => max (ema - penalty) 0 :: rest)

/-- Row recursion of `BondMatrix::update_ema`: bond row `i` reads weight
row `i`; a missing weight row is an index panic (`none`) unless the bond
row is empty, in which case the inner loop body never runs. -/
def updateEmaRows (alpha bond_penalty : ℚ) (consensus_weights : List ℚ) :
    List (List ℚ) → List (List ℚ) → Option (List (List ℚ))
  | [], _ => some []
  | brow :: brest, wrows =>
      match brow, wrows with
      | [], _ =>
          (updateEmaRows alpha bond_penalty consensus_weights brest wrows.tail).map
            (fun rest => [] :: rest)
      | _ :: _, [] => none
      | b0 :: btail, wrow :: wrest =>
          match updateEmaRow alpha bond_penalty consensus_weights (b0 :: btail) wrow 0 with
          | none => none
          | some row =>
              (updateEmaRows alpha bond_penalty consensus_weights brest wrest).map
                (fun rest => row :: rest)

/-- `BondMatrix::update_ema` (bonds.rs): for every `(i, j)` inside the
bond matrix, `B[i][j] := max(0, α·W[i][j] + (1−α)·B_prev[i][j] −
bond_penalty·|W[i][j] − c[j]|)`, with `c[j] = 0` out of range.  `none`
models the panic when the weight matrix does not cover the bond matrix. -/
def BondMatrix.update_ema (b : BondMatrix) (weights : WeightMatrix)
    (alpha bond_penalty : ℚ) (consensus_weights : List ℚ) : Option BondMatrix :=
  (updateEmaRows alpha bond_penalty consensus_weights b.bonds weights.weights).map
    (fun rows => { bonds := rows })

/-! ## crates/chitin-store/src/rocks.rs

The RocksDB keyspace holds primary records `polyp:{uuid} → json(polyp)`
and index-only keys `state:{tag}:{uuid} → ε`.  Because the two key
families are disjoint by prefix, the keyspace is modelled as a pair of
finite maps: an association list for the primary records (RocksDB `put`
overwrites, `delete` removes) and a list of `(tag, uuid)` pairs for the
secondary index.  JSON serialization round-trips and is dropped from the
model. -/

/-- `state_tag` from rocks.rs: the stable index tag of a state;
note `Molted { .. }` collapses to `"molted"` regardless of successor. -/
def state_tag : PolypState → String
  | PolypState.Draft => "draft"
  | PolypState.Soft => "soft"
  | PolypState.UnderReview => "under_review"
  | PolypState.Approved => "approved"
  | PolypState.Hardened => "hardened"
  | PolypState.Rejected => "rejected"
  | PolypState.Molted _ => "molted"

/-- The RocksDB keyspace visible to the polyp store. -/
structure StoreState where
  primary : List (ℕ × Polyp)
  index : List (String × ℕ)
deriving DecidableEq, Repr

/-- The freshly-opened (empty) store. -/
def StoreState.empty : StoreState := { primary := [], index := [] }

/-- RocksDB `put` on the primary family: overwrite the record at key `k`. -/
def putPrimary (k : ℕ) (v : Polyp) (m : List (ℕ × Polyp)) : List (ℕ × Polyp) :=
  (k, v) :: m.filter (fun kv => kv.1 ≠ k)

/-- RocksDB `delete` on the primary family. -/
def delPrimary (k : ℕ) (m : List (ℕ × Polyp)) : List (ℕ × Polyp) :=
  m.filter (fun kv => kv.1 ≠ k)

/-- RocksDB `put` of the empty-valued index key `state:{tag}:{uuid}`. -/
def putIndex (tag : String) (id : ℕ) (ix : List (String × ℕ)) : List (String × ℕ) :=
  (tag, id) :: ix.filter (fun e => e ≠ (tag, id))

/-- RocksDB `delete` of an index key. -/
def delIndex (tag : String) (id : ℕ) (ix : List (String × ℕ)) : List (String × ℕ) :=
  ix.filter (fun e => e ≠ (tag, id))

/-- `RocksStore::get_polyp_sync`: primary lookup + JSON decode. -/
def StoreState.get_polyp (s : StoreState) (id : ℕ) : Option Polyp :=
  (s.primary.find? (fun kv => kv.1 = id)).map (fun kv => kv.2)

/-- `RocksStore::store_polyp_inner`: write the primary record, then the
secondary state index entry. -/
def StoreState.store_polyp_inner (s : StoreState) (polyp : Polyp) : StoreState :=
  { primary := putPrimary polyp.id polyp s.primary
    index := putIndex (state_tag polyp.state) polyp.id s.index }

/-- `RocksStore::remove_state_index`. -/
def StoreState.remove_state_index (s : StoreState) (state : PolypState) (id : ℕ) :
    StoreState :=
  { s with index := delIndex (state_tag state) id s.index }

/-- `RocksStore::save_polyp_sync`: if the polyp already exists with a
different state, the old state index entry is removed before the new
record and index entry are written. -/
def StoreState.save_polyp (s : StoreState) (polyp : Polyp) : StoreState :=
  let s1 :=
    match s.get_polyp polyp.id with
    | some existing =>
        if existing.state ≠ polyp.state then
          s.remove_state_index existing.state polyp.id
        else s
    | none => s
  s1.store_polyp_inner polyp

/-- `RocksStore::delete_polyp`: remove the state index entry first (if
the polyp exists), then the primary record. -/
def StoreState.delete_polyp (s : StoreState) (id : ℕ) : StoreState :=
  let s1 :=
    match s.get_polyp id with
    | some existing => s.remove_state_index existing.state id
    | none => s
  { s1 with primary := delPrimary id s1.primary }

/-- `RocksStore::list_polyps_by_state`: iterate the `state:{tag}:` index
prefix and fetch each referenced primary record. -/
def StoreState.list_polyps_by_state (s : StoreState) (state : PolypState) : List Polyp :=
  (s.index.filter (fun e => e.1 = state_tag state)).filterMap
    (fun e => s.get_polyp e.2)

/-- One client operation against the store. -/
inductive StoreOp where
  | save (polyp : Polyp)
  | del (id : ℕ)
deriving Repr

/-- Run a sequence of save/delete operations from a given store state. -/
def runOps (ops : List StoreOp) (s : StoreState) : StoreState :=
  match ops with
  | [] => s
  | StoreOp.save p :: rest => runOps rest (s.save_polyp p)
  | StoreOp.del id :: rest => runOps rest (s.delete_polyp id)

/-! ## crates/chitin-consensus/src/yuma.rs -/

/-- `ConsensusResult` from yuma.rs; polyp UUIDs as `ℕ`. -/
structure ConsensusResult where
  consensus_weights : List ℚ
  incentives : List ℚ
  dividends : List ℚ
  bonds : List (List ℚ)
  hardened_polyp_ids : List ℕ
deriving DecidableEq, Repr

/-- The cumulative-stake walk of yuma.rs step 3: add each stake, remember
the weight, and stop at the first weight whose cumulative stake reaches
`kappa`; if the walk never reaches `kappa` the last weight stands (the
initial `median_val` is 0 for an empty list). -/
def medianWalk (kappa : ℚ) : List (ℚ × ℚ) → ℚ → ℚ → ℚ
  | [], _, median_val => median_val
  | (w, s) :: rest, cumulative, _ =>
      let c := cumulative + s
      if kappa ≤ c then w else medianWalk kappa rest c w

/-- `n_corals = weights[0].len()` (0 for an empty weight matrix). -/
def nCorals (weights : List (List ℚ)) : ℕ := (weights.headD []).length

/-- Step 1 of yuma.rs: stakes normalized to sum 1 (all-zero fallback). -/
def normStakes (stakes : List ℕ) : List ℚ :=
  let total_stake : ℚ := (stakes.map (fun (s : ℕ) => (s : ℚ))).sum
  if 0 < total_stake then stakes.map (fun (s : ℕ) => (s : ℚ) / total_stake)
  else List.replicate stakes.length 0

/-- Step 2 of yuma.rs: row-normalized weight matrix (zero-sum rows kept). -/
def normWeights (weights : List (List ℚ)) : List (List ℚ) :=
  weights.map (fun row =>
    if 0 < row.sum then row.map (fun w => w / row.sum) else row)

/-- Step 3 of yuma.rs, per coral `j`: the `(weight, stake)` pairs over
the validators, read as the source does with `norm_weights[i][j]`. -/
def coralPairs (stakes : List ℕ) (weights : List (List ℚ)) (j : ℕ) : List (ℚ × ℚ) :=
  (List.range stakes.length).map (fun i =>
    (((normWeights weights).getD i []).getD j 0, (normStakes stakes).getD i 0))

/-- Step 3's sort.  Rust `sort_by(partial_cmp ... unwrap_or Equal)` is
the stable sort by the first component; on exact rationals that
comparator is the total order `≤`, so the stable `insertionSort`
computes the same list. -/
def sortedCoralPairs (stakes : List ℕ) (weights : List (List ℚ)) (j : ℕ) :
    List (ℚ × ℚ) :=
  List.insertionSort (fun a b => a.1 ≤ b.1) (coralPairs stakes weights j)

/-- Step 3 of yuma.rs: the stake-weighted median consensus weights. -/
def consensusWeightsDef (stakes : List ℕ) (weights : List (List ℚ)) (kappa : ℚ) :
    List ℚ :=
  (List.range (nCorals weights)).map
    (fun j => medianWalk kappa (sortedCoralPairs stakes weights j) 0 0)

/-- Step 4 of yuma.rs: per-validator agreement, `1` when there are no corals. -/
def agreementDef (stakes : List ℕ) (weights : List (List ℚ)) (kappa : ℚ) : List ℚ :=
  let n_corals := nCorals weights
  let cw := consensusWeightsDef stakes weights kappa
  (List.range stakes.length).map (fun i =>
    if n_corals = 0 then 1
    else
      1 - ((List.range n_corals).map (fun j =>
            |((normWeights weights).getD i []).getD j 0 - cw.getD j 0|)).sum
            / (n_corals : ℚ))

/-- Step 5 of yuma.rs: the EMA-with-penalty bond matrix; `prev_bonds` is
read with the source's explicit bounds checks defaulting to 0. -/
def bondsDef (stakes : List ℕ) (weights prev_bonds : List (List ℚ))
    (kappa bond_penalty alpha : ℚ) : List (List ℚ) :=
  let cw := consensusWeightsDef stakes weights kappa
  (List.range stakes.length).map (fun i =>
    (List.range (nCorals weights)).map (fun j =>
      let prev := (prev_bonds.getD i []).getD j 0
      let w_ij := ((normWeights weights).getD i []).getD j 0
      let ema := alpha * w_ij + (1 - alpha) * prev
      let penalty := bond_penalty * |w_ij - cw.getD j 0|
      max (ema - penalty) 0))

/-- Step 6 of yuma.rs: incentives, the consensus weights normalized to
sum 1 (all-zero fallback). -/
def incentivesDef (stakes : List ℕ) (weights : List (List ℚ)) (kappa : ℚ) : List ℚ :=
  let cw := consensusWeightsDef stakes weights kappa
  if 0 < cw.sum then cw.map (fun c => c / cw.sum)
  else List.replicate (nCorals weights) 0

/-- Step 7 of yuma.rs: raw dividends `agreement[i] * stake[i] * Σⱼ bonds[i][j]`. -/
def rawDividendsDef (stakes : List ℕ) (weights prev_bonds : List (List ℚ))
    (kappa bond_penalty alpha : ℚ) : List ℚ :=
  let agreement := agreementDef stakes weights kappa
  let bonds := bondsDef stakes weights prev_bonds kappa bond_penalty alpha
  (List.range stakes.length).map (fun i =>
    (agreement.getD i 0) * (normStakes stakes).getD i 0 * (bonds.getD i []).sum)

/-- Step 7 of yuma.rs: dividends normalized to sum 1 (all-zero fallback). -/
def dividendsDef (stakes : List ℕ) (weights prev_bonds : List (List ℚ))
    (kappa bond_penalty alpha : ℚ) : List ℚ :=
  let raw := rawDividendsDef stakes weights prev_bonds kappa bond_penalty alpha
  if 0 < raw.sum then raw.map (fun d => d / raw.sum)
  else List.replicate stakes.length 0

/-- The `ConsensusResult` assembled by yuma.rs when no index panic occurs. -/
def yumaResult (stakes : List ℕ) (weights prev_bonds : List (List ℚ))
    (kappa bond_penalty alpha : ℚ) : ConsensusResult :=
  { consensus_weights := consensusWeightsDef stakes weights kappa
    incentives := incentivesDef stakes weights kappa
    dividends := dividendsDef stakes weights prev_bonds kappa bond_penalty alpha
    bonds := bondsDef stakes weights prev_bonds kappa bond_penalty alpha
    hardened_polyp_ids := [] }

/-- `yuma_semantic_consensus` from yuma.rs.  `none` models the index
panic on `norm_weights[i][j]` when the weight matrix does not provide
`n_corals = weights[0].len()` entries for each of the first
`n_validators` rows (steps 3–5 read every such entry whenever both
loop ranges are non-empty). -/
def yuma_semantic_consensus (stakes : List ℕ) (weights prev_bonds : List (List ℚ))
    (kappa bond_penalty alpha : ℚ) : Option ConsensusResult :=
  if stakes.length = 0 then
    some { consensus_weights := [], incentives := [], dividends := [],
           bonds := [], hardened_polyp_ids := [] }
  else if nCorals weights ≠ 0 ∧ ¬ (stakes.length ≤ (normWeights weights).length ∧
      ∀ row ∈ (normWeights weights).take stakes.length,
        nCorals weights ≤ row.length) then
    none
  else
    some (yumaResult stakes weights prev_bonds kappa bond_penalty alpha)

/-! ## crates/chitin-daemon/src/consensus_runner.rs -/

/-- `APPROVAL_THRESHOLD` from consensus_runner.rs. -/
def APPROVAL_THRESHOLD : ℚ := 3/10

/-- The approval loop of `run_epoch_consensus` (step 6): walk the
re-listed UnderReview polyps with their indices and keep those whose
consensus weight exceeds the threshold (with the source's bounds
check on the weight vector). -/
def approvedPolyps {α : Type} (under_review : List α)
    (consensus_weights : List ℚ) : List α :=
  under_review.enum.filterMap (fun ip =>
    if ip.1 < consensus_weights.length ∧
        APPROVAL_THRESHOLD < consensus_weights.getD ip.1 0
    then some ip.2 else none)

/-! ## crates/chitin-reputation/src/trust_matrix.rs -/

/-- `TrustMatrix`: the `HashMap<(u16, u16), f64>` of sparse trust
entries, modelled as an association list with first-match lookup. -/
structure TrustMatrix where
  entries : List ((ℕ × ℕ) × ℚ)
deriving DecidableEq, Repr

/-- `TrustMatrix::get_trust` (also the per-entry value the matrix build
of `compute_global_trust` reads). -/
def TrustMatrix.get_trust (tm : TrustMatrix) (f t : ℕ) : ℚ :=
  ((tm.entries.find? (fun e => e.1 = (f, t))).map (fun e => e.2)).getD 0

/-- Step 1 of `compute_global_trust`: the sorted list of distinct node
UIDs occurring in the entry set. -/
def tmUids (tm : TrustMatrix) : List ℕ :=
  List.insertionSort (fun a b => a ≤ b)
    ((tm.entries.map (fun e => e.1.1) ++ tm.entries.map (fun e => e.1.2)).dedup)

/-- Step 2 of `compute_global_trust`, per row: divide through a positive
row sum, or fall back to the uniform `1/n` row for dangling nodes. -/
def rowNormalize (n : ℕ) (row : List ℚ) : List ℚ :=
  if 0 < row.sum then row.map (fun v => v / row.sum)
  else List.replicate n ((1 : ℚ) / (n : ℚ))

/-- Steps 1–2 of `compute_global_trust`: the dense row-normalized matrix
`C` over the sorted UID universe. -/
def buildC (tm : TrustMatrix) (uids : List ℕ) : List (List ℚ) :=
  (List.range uids.length).map (fun i =>
    rowNormalize uids.length
      ((List.range uids.length).map (fun j =>
        tm.get_trust (uids.getD i 0) (uids.getD j 0))))

/-- `sum_i C[i][j] * t[i]`, walking the rows of `C` in step with `t`. -/
def colDot : List (List ℚ) → List ℚ → ℕ → ℚ
  | [], _, _ => 0
  | _ :: _, [], _ => 0
  | row :: crest, ti :: trest, j => row.getD j 0 * ti + colDot crest trest j

/-- One iteration of step 4: `t'[j] = (1−α)·Σᵢ C[i][j]·t[i] + α·p[j]`. -/
def trustStep (n : ℕ) (alpha : ℚ) (c : List (List ℚ)) (p t : List ℚ) : List ℚ :=
  (List.range n).map (fun j => (1 - alpha) * colDot c t j + alpha * p.getD j 0)

/-- Step 4's loop: up to `fuel` iterations, stopping early when the L1
delta drops below `epsilon`; every pass replaces `t` by `t_new`. -/
def trustIterate (n : ℕ) (alpha epsilon : ℚ) (c : List (List ℚ)) (p : List ℚ) :
    ℕ → List ℚ → List ℚ
  | 0, t => t
  | fuel + 1, t =>
      let t_new := trustStep n alpha c p t
      let delta := ((t.zip t_new).map (fun ab => |ab.1 - ab.2|)).sum
      if delta < epsilon then t_new else trustIterate n alpha epsilon c p fuel t_new

/-- `TrustMatrix::compute_global_trust`: EigenTrust-style aggregation;
the returned `HashMap<u16, f64>` is modelled as the `(uid, score)` pair
list over the sorted UID universe. -/
def TrustMatrix.compute_global_trust (tm : TrustMatrix) : List (ℕ × ℚ) :=
  let uids := tmUids tm
  if uids.isEmpty then []
  else
    let n := uids.length
    let c := buildC tm uids
    let uniform : ℚ := 1 / (n : ℚ)
    let t0 := List.replicate n uniform
    let p := List.replicate n uniform
    let alpha : ℚ := 1/10
    let t := trustIterate n alpha (1/100000000) c p 100 t0
    uids.zip t

/-! ## Concrete sample inputs used by witnesses and counterexamples -/

/-- A minimal concrete capsule (empty payload, placeholder everything). -/
def samplePolyp : Polyp :=
  { id := 0
    state := PolypState.Draft
    subject :=
      { payload := { content := "", content_type := "text/plain", language := none }
        vector := { values := [], model_id := { provider := "", name := "", dimensions := 0 } }
        provenance :=
          { creator := { coldkey := List.replicate 32 0, hotkey := List.replicate 32 0 }
            source := { source_url := none, title := none }
            pipeline := { steps := [], duration_ms := 0 } } }
    proof := { proof_type := "SP1Groth16", proof_value := "" }
    created_at := 0
    signature := none }

/-- A concrete molted capsule with successor id 1. -/
def moltedPolyp : Polyp :=
  { samplePolyp with state := PolypState.Molted 1 }

/-- A concrete capsule whose content is seven two-byte characters:
7 characters but 14 UTF-8 bytes. -/
def nonAsciiPolyp : Polyp :=
  { samplePolyp with
    subject :=
      { samplePolyp.subject with
        payload := { samplePolyp.subject.payload with content := "ééééééé" } } }

/-- A concrete metagraph snapshot with the given epoch. -/
def sampleMetagraph (e : ℕ) : ReefMetagraph :=
  { epoch := e, block := e * 100, payload := 0 }

/-- The store coherence invariant maintained by `save_polyp` and
`delete_polyp`: every primary record is keyed by its capsule's id, and
the secondary index holds exactly the pairs `(state_tag(p.state), id)`
for the currently stored capsules `p`. -/
def StoreInv (s : StoreState) : Prop :=
  (∀ kv ∈ s.primary, kv.2.id = kv.1) ∧
  (∀ e : String × ℕ, e ∈ s.index ↔
    ∃ p, s.get_polyp e.2 = some p ∧ state_tag p.state = e.1)

/-! # Theorems -/

/-- C6: for every block height `b` and `blocks_per_epoch ≥ 1`,
`advance_block b` sets the epoch to `b div N` and the phase by the
fraction `f = (b mod N) / N` (`f < 0.50` Open, `f < 0.75` Scoring, else
Committing), and a second `advance_block` at the same height leaves the
manager unchanged. -/
theorem epoch_advance_block_spec (m : EpochManager) (b : ℕ)
    (hN : 1 ≤ m.blocks_per_epoch) :
    (m.advance_block b).current_epoch = b / m.blocks_per_epoch ∧
    ((m.advance_block b).phase =
      if ((b % m.blocks_per_epoch : ℕ) : ℚ) / (m.blocks_per_epoch : ℚ) < 1/2 then
        EpochPhase.Open
      else if ((b % m.blocks_per_epoch : ℕ) : ℚ) / (m.blocks_per_epoch : ℚ) < 3/4 then
        EpochPhase.Scoring
      else EpochPhase.Committing) ∧
    (m.advance_block b).advance_block b = m.advance_block b := by
  refine ⟨rfl, rfl, rfl⟩

/-- C6 witness: a manager with 360 blocks per epoch at block 270
(fraction 0.75) lands in epoch 0, phase Committing, idempotently. -/
theorem epoch_advance_block_spec_witness :
    1 ≤ (EpochManager.new 360).blocks_per_epoch ∧
    (((EpochManager.new 360).advance_block 270).current_epoch = 270 / 360 ∧
     (((EpochManager.new 360).advance_block 270).phase =
       if ((270 % (EpochManager.new 360).blocks_per_epoch : ℕ) : ℚ) /
           ((EpochManager.new 360).blocks_per_epoch : ℚ) < 1/2 then
         EpochPhase.Open
       else if ((270 % (EpochManager.new 360).blocks_per_epoch : ℕ) : ℚ) /
           ((EpochManager.new 360).blocks_per_epoch : ℚ) < 3/4 then
         EpochPhase.Scoring
       else EpochPhase.Committing) ∧
     ((EpochManager.new 360).advance_block 270).advance_block 270 =
       (EpochManager.new 360).advance_block 270) :=
  ⟨by norm_num [EpochManager.new],
   epoch_advance_block_spec (EpochManager.new 360) 270 (by norm_num [EpochManager.new])⟩

/-- C9: an unsigned capsule (signature `None`) verifies to `Ok(false)`
for every public key and regardless of the external ed25519 verifier and
digest function. -/
theorem verify_signature_unsigned_is_ok_false
    (cryptoVerify : List ℕ → List ℕ → List ℕ → Except ChitinError Bool)
    (signable : Polyp → List ℕ) (p : Polyp) (public_key : List ℕ)
    (hsig : p.signature = none) (hpk : public_key.length = 32) :
    Polyp.verify_signature cryptoVerify signable p public_key = Except.ok false := by
  simp [Polyp.verify_signature, hsig]

/-- C9 witness: the sample unsigned capsule against the all-zero 32-byte
key and an ed25519 verifier that would accept everything. -/
theorem verify_signature_unsigned_is_ok_false_witness :
    samplePolyp.signature = none ∧ (List.replicate 32 0 : List ℕ).length = 32 ∧
    Polyp.verify_signature (fun _ _ _ => Except.ok true) (fun _ => [])
      samplePolyp (List.replicate 32 0) = Except.ok false :=
  ⟨rfl, by simp,
   verify_signature_unsigned_is_ok_false (fun _ _ _ => Except.ok true) (fun _ => [])
     samplePolyp (List.replicate 32 0) rfl (by simp)⟩

/-- C5: the first snapshot is accepted unconditionally; afterwards an
update succeeds iff its epoch strictly exceeds the last accepted epoch;
failures return `Consensus("Stale epoch: got X but last was Y")` and
leave the manager untouched.  Concretely: after epoch 5, updates with
epochs 5 and 3 fail leaving `current().epoch = 5`, then epoch 6 succeeds. -/
theorem metagraph_update_epoch_monotonic :
    (∀ mg : ReefMetagraph,
      (MetagraphManager.new.update mg).1 = Except.ok () ∧
      (MetagraphManager.new.update mg).2.current? = some mg) ∧
    (∀ (m : MetagraphManager) (mg : ReefMetagraph) (last : ℕ),
      m.last_epoch = some last →
      ((last < mg.epoch →
          (m.update mg).1 = Except.ok () ∧
          (m.update mg).2 = { current := some mg, last_epoch := some mg.epoch }) ∧
       (mg.epoch ≤ last →
          (m.update mg).1 = Except.error (ChitinError.Consensus
            ("Stale epoch: got " ++ Nat.repr mg.epoch ++
              " but last was " ++ Nat.repr last)) ∧
          (m.update mg).2 = m))) ∧
    ((MetagraphManager.new.update (sampleMetagraph 5)).1 = Except.ok () ∧
     (let s1 := (MetagraphManager.new.update (sampleMetagraph 5)).2
      let r2 := s1.update (sampleMetagraph 5)
      let r3 := r2.2.update (sampleMetagraph 3)
      let r4 := r3.2.update (sampleMetagraph 6)
      (∃ msg, r2.1 = Except.error (ChitinError.Consensus msg)) ∧
      r2.2.current?.map ReefMetagraph.epoch = some 5 ∧
      (∃ msg, r3.1 = Except.error (ChitinError.Consensus msg)) ∧
      r3.2.current?.map ReefMetagraph.epoch = some 5 ∧
      r4.1 = Except.ok () ∧
      r4.2.current?.map ReefMetagraph.epoch = some 6)) := by
  refine ⟨fun mg => ⟨rfl, rfl⟩, ?_, ?_⟩
  · intro m mg last h
    constructor
    · intro hlt
      simp only [MetagraphManager.update, h]
      rw [if_neg (not_le.mpr hlt)]
      exact ⟨rfl, rfl⟩
    · intro hle
      simp only [MetagraphManager.update, h]
      rw [if_pos hle]
      exact ⟨rfl, rfl⟩
  · refine ⟨rfl,
      ⟨"Stale epoch: got " ++ Nat.repr 5 ++ " but last was " ++ Nat.repr 5, ?_⟩, ?_,
      ⟨"Stale epoch: got " ++ Nat.repr 3 ++ " but last was " ++ Nat.repr 5, ?_⟩, ?_, ?_, ?_⟩ <;>
      simp [MetagraphManager.new, MetagraphManager.update, MetagraphManager.current?,
        sampleMetagraph]

/-- C5 witness: a manager whose last accepted epoch is 5 rejects an
epoch-3 snapshot with the stale-epoch consensus error and keeps its
state. -/
theorem metagraph_update_epoch_monotonic_witness :
    ({ current := some (sampleMetagraph 5), last_epoch := some 5 } :
        MetagraphManager).last_epoch = some 5 ∧
    (sampleMetagraph 3).epoch ≤ 5 ∧
    (({ current := some (sampleMetagraph 5), last_epoch := some 5 } :
        MetagraphManager).update (sampleMetagraph 3)).1 =
      Except.error (ChitinError.Consensus
        ("Stale epoch: got " ++ Nat.repr (sampleMetagraph 3).epoch ++
          " but last was " ++ Nat.repr 5)) ∧
    (({ current := some (sampleMetagraph 5), last_epoch := some 5 } :
        MetagraphManager).update (sampleMetagraph 3)).2 =
      { current := some (sampleMetagraph 5), last_epoch := some 5 } :=
  ⟨rfl, by norm_num [sampleMetagraph],
    ((metagraph_update_epoch_monotonic.2.1
        { current := some (sampleMetagraph 5), last_epoch := some 5 }
        (sampleMetagraph 3) 5 rfl).2 (by norm_num [sampleMetagraph])).1,
    ((metagraph_update_epoch_monotonic.2.1
        { current := some (sampleMetagraph 5), last_epoch := some 5 }
        (sampleMetagraph 3) 5 rfl).2 (by norm_num [sampleMetagraph])).2⟩

/-- Helper: a nonnegative value capped at 1 lies in the unit interval. -/
theorem min_one_mem_unit {x : ℚ} (hx : 0 ≤ x) : 0 ≤ min x 1 ∧ min x 1 ≤ 1 :=
  ⟨le_min hx zero_le_one, min_le_right x 1⟩

/-- Helper: the `source_url` bonus is one of 0 or 0.2, hence nonnegative. -/
theorem urlBonus_nonneg (o : Option String) : 0 ≤ urlBonus o := by
  cases o with
  | none => norm_num [urlBonus]
  | some url => rw [urlBonus]; split <;> norm_num

/-- Helper: the `title` bonus is one of 0 or 0.1, hence nonnegative. -/
theorem titleBonus_nonneg (o : Option String) : 0 ≤ titleBonus o := by
  cases o with
  | none => norm_num [titleBonus]
  | some t => rw [titleBonus]; split <;> norm_num

/-- C7 (amended): every scored capsule gets its five dimension values
from the §4.4 heuristics (the definitions above, translated clause by
clause from scoring.rs — the semantic-quality step function is over the
content's UTF-8 byte length, which is what Rust `content.len()`
measures), and each of the five fields lies in `[0, 1]`. -/
theorem score_polyp_multi_dimensional_in_unit_interval (polyp : Polyp) :
    (0 ≤ (score_polyp_multi_dimensional polyp).zk_validity ∧
      (score_polyp_multi_dimensional polyp).zk_validity ≤ 1) ∧
    (0 ≤ (score_polyp_multi_dimensional polyp).semantic_quality ∧
      (score_polyp_multi_dimensional polyp).semantic_quality ≤ 1) ∧
    (0 ≤ (score_polyp_multi_dimensional polyp).novelty ∧
      (score_polyp_multi_dimensional polyp).novelty ≤ 1) ∧
    (0 ≤ (score_polyp_multi_dimensional polyp).source_credibility ∧
      (score_polyp_multi_dimensional polyp).source_credibility ≤ 1) ∧
    (0 ≤ (score_polyp_multi_dimensional polyp).embedding_quality ∧
      (score_polyp_multi_dimensional polyp).embedding_quality ≤ 1) := by
  refine ⟨?_, ?_, ?_, ?_, ?_⟩
  · simp only [score_polyp_multi_dimensional, score_zk_validity]
    split <;> norm_num
  · simp only [score_polyp_multi_dimensional, score_semantic_quality]
    split_ifs <;> norm_num
  · simp only [score_polyp_multi_dimensional, score_novelty]
    split
    · norm_num
    · exact ⟨le_max_right _ 0, max_le (min_le_right _ 1) zero_le_one⟩
  · simp only [score_polyp_multi_dimensional, score_source_credibility]
    refine min_one_mem_unit ?_
    have hcreator : (0:ℚ) ≤
        if polyp.subject.provenance.creator.coldkey ≠ List.replicate 32 0
        then 2/10 else 0 := by split <;> norm_num
    have hstep : (0:ℚ) ≤
        min ((polyp.subject.provenance.pipeline.steps.length : ℚ) * (1/10)) (2/10) :=
      le_min (by positivity) (by norm_num)
    exact add_nonneg (add_nonneg (add_nonneg (urlBonus_nonneg _) (titleBonus_nonneg _))
      hcreator) hstep
  · simp only [score_polyp_multi_dimensional, score_embedding_quality]
    split
    · norm_num
    · refine min_one_mem_unit ?_
      have hd : (0:ℚ) ≤
          if polyp.subject.vector.values.length = polyp.subject.vector.model_id.dimensions
          then 1/2 else 0 := by split <;> norm_num
      have hn : (0:ℚ) ≤
          if 81/100 < (polyp.subject.vector.values.map (fun v => v * v)).sum ∧
              (polyp.subject.vector.values.map (fun v => v * v)).sum < 121/100
          then 3/10 else 0 := by split <;> norm_num
      have hz : (0:ℚ) ≤
          if polyp.subject.vector.values.any (fun v => v != 0) then 2/10 else 0 := by
        split <;> norm_num
      exact add_nonneg (add_nonneg hd hn) hz

/-- C7 counterexample to the claim as stated: the step function runs on
the UTF-8 *byte* length (`content.len()` in scoring.rs), not the
character count.  A content of 7 two-byte characters has at most 10
characters, so the claim's character-threshold rule yields 0.1, but the
program computes 0.3 (14 bytes fall in the second bucket). -/
theorem semantic_quality_byte_length_counterexample :
    nonAsciiPolyp.subject.payload.content.length ≤ 10 ∧
    (score_polyp_multi_dimensional nonAsciiPolyp).semantic_quality = 3/10 ∧
    (score_polyp_multi_dimensional nonAsciiPolyp).semantic_quality ≠ 1/10 := by
  have hbytes : nonAsciiPolyp.subject.payload.content.utf8ByteSize = 14 := rfl
  have hval : (score_polyp_multi_dimensional nonAsciiPolyp).semantic_quality = 3/10 := by
    simp only [score_polyp_multi_dimensional, score_semantic_quality, hbytes]
    norm_num
  refine ⟨by decide, hval, ?_⟩
  rw [hval]
  norm_num

/-- Helper: the inner EMA loop succeeds when the weight row covers the
bond row, has the bond row's length, computes the clamped EMA-penalty
formula entrywise, and yields only nonnegative entries. -/
theorem updateEmaRow_spec (alpha bp : ℚ) (cwv : List ℚ) :
    ∀ (brow wrow : List ℚ) (j0 : ℕ), brow.length ≤ wrow.length →
    ∃ r, updateEmaRow alpha bp cwv brow wrow j0 = some r ∧
      r.length = brow.length ∧
      (∀ k, k < brow.length →
        r.getD k 0 = max (alpha * wrow.getD k 0 + (1 - alpha) * brow.getD k 0
          - bp * |wrow.getD k 0 - cwv.getD (j0 + k) 0|) 0) ∧
      (∀ x ∈ r, 0 ≤ x) := by
  intro brow
  induction brow with
  | nil =>
      intro wrow j0 _
      exact ⟨[], rfl, rfl, fun k hk => absurd hk (Nat.not_lt_zero k), fun x hx => absurd hx
        (List.not_mem_nil x)⟩
  | cons b bs ih =>
      intro wrow j0 hlen
      match wrow with
      | [] => simp at hlen
      | w :: ws =>
          have hlen' : bs.length ≤ ws.length := by
            simpa [Nat.succ_le_succ_iff] using hlen
          obtain ⟨r, hr, hrl, hrk, hrpos⟩ := ih ws (j0 + 1) hlen'
          refine ⟨max (alpha * w + (1 - alpha) * b - bp * |w - cwv.getD j0 0|) 0 :: r,
            ?_, by simp [hrl], ?_, ?_⟩
          · simp only [updateEmaRow, hr]
            rfl
          · intro k hk
            match k with
            | 0 => simp
            | k + 1 =>
                have hk' : k < bs.length := Nat.lt_of_succ_lt_succ hk
                have := hrk k hk'
                simpa [Nat.add_comm, Nat.add_assoc, Nat.add_left_comm] using this
          · intro x hx
            rcases List.mem_cons.mp hx with h | h
            · subst h; exact le_max_right _ 0
            · exact hrpos x h

/-- Helper: the row recursion of `update_ema` succeeds when the weight
matrix covers the bond matrix, preserves the shape, computes the clamped
EMA-penalty formula at every in-range position, and yields only
nonnegative entries. -/
theorem updateEmaRows_spec (alpha bp : ℚ) (cwv : List ℚ) :
    ∀ (brows wrows : List (List ℚ)),
      brows.length ≤ wrows.length →
      (∀ i, i < brows.length → (brows.getD i []).length ≤ (wrows.getD i []).length) →
      ∃ rs, updateEmaRows alpha bp cwv brows wrows = some rs ∧
        rs.length = brows.length ∧
        (∀ i, i < brows.length → (rs.getD i []).length = (brows.getD i []).length) ∧
        (∀ i k, i < brows.length → k < (brows.getD i []).length →
          (rs.getD i []).getD k 0 =
            max (alpha * (wrows.getD i []).getD k 0
              + (1 - alpha) * (brows.getD i []).getD k 0
              - bp * |(wrows.getD i []).getD k 0 - cwv.getD k 0|) 0) ∧
        (∀ row ∈ rs, ∀ x ∈ row, 0 ≤ x) := by
  intro brows
  induction brows with
  | nil =>
      intro wrows _ _
      exact ⟨[], rfl, rfl, fun i hi => absurd hi (Nat.not_lt_zero i),
        fun i k hi => absurd hi (Nat.not_lt_zero i),
        fun row hrow => absurd hrow (List.not_mem_nil row)⟩
  | cons brow brest ih =>
      intro wrows hlen hcov
      match wrows with
      | [] => simp at hlen
      | wrow :: wrest =>
          have hlen' : brest.length ≤ wrest.length := by
            simpa [Nat.succ_le_succ_iff] using hlen
          have hcov' : ∀ i, i < brest.length →
              (brest.getD i []).length ≤ (wrest.getD i []).length := by
            intro i hi
            have := hcov (i + 1) (Nat.succ_lt_succ hi)
            simpa using this
          obtain ⟨rs, hrs, hrsl, hrsshape, hrsval, hrspos⟩ := ih wrest hlen' hcov'
          have hcov0 : brow.length ≤ wrow.length := by simpa using hcov 0 (Nat.succ_pos _)
          obtain ⟨r, hr, hrl, hrk, hrpos⟩ := updateEmaRow_spec alpha bp cwv brow wrow 0 hcov0
          refine ⟨r :: rs, ?_, by simp [hrsl], ?_, ?_, ?_⟩
          · match brow, hcov0, hr with
            | [], _, hr =>
                have : r = [] := by
                  simpa [updateEmaRow] using hr
                subst this
                simp only [updateEmaRows, List.tail_cons, hrs]
                rfl
            | b0 :: btail, _, hr =>
                simp only [updateEmaRows, hr, hrs]
                rfl
          · intro i hi
            match i with
            | 0 => simpa using hrl
            | i + 1 =>
                have hi' : i < brest.length := Nat.lt_of_succ_lt_succ hi
                simpa using hrsshape i hi'
          · intro i k hi hk
            match i with
            | 0 =>
                have := hrk k (by simpa using hk)
                simpa using this
            | i + 1 =>
                have hi' : i < brest.length := Nat.lt_of_succ_lt_succ hi
                have := hrsval i k hi' (by simpa using hk)
                simpa using this
          · intro row hrow
            rcases List.mem_cons.mp hrow with h | h
            · subst h; exact hrpos
            · exact hrspos row h

/-- C3: when the weight matrix covers the bond matrix,
`BondMatrix::update_ema` succeeds and sets every in-range entry to
`max(0, α·W[i][j] + (1−α)·B_prev[i][j] − bond_penalty·|W[i][j] − c[j]|)`
with `c[j]` read as 0 out of range, and every resulting bond entry is
nonnegative. -/
theorem bond_update_ema_spec (b : BondMatrix) (weights : WeightMatrix)
    (alpha bond_penalty : ℚ) (consensus_weights : List ℚ)
    (hlen : b.bonds.length ≤ weights.weights.length)
    (hcov : ∀ i, i < b.bonds.length →
      (b.bonds.getD i []).length ≤ (weights.weights.getD i []).length) :
    ∃ b', b.update_ema weights alpha bond_penalty consensus_weights = some b' ∧
      b'.bonds.length = b.bonds.length ∧
      (∀ i j, i < b.bonds.length → j < (b.bonds.getD i []).length →
        (b'.bonds.getD i []).getD j 0 =
          max 0 (alpha * (weights.weights.getD i []).getD j 0
            + (1 - alpha) * (b.bonds.getD i []).getD j 0
            - bond_penalty * |(weights.weights.getD i []).getD j 0
                - consensus_weights.getD j 0|)) ∧
      (∀ row ∈ b'.bonds, ∀ x ∈ row, 0 ≤ x) := by
  obtain ⟨rs, hrs, hrsl, _, hrsval, hrspos⟩ :=
    updateEmaRows_spec alpha bond_penalty consensus_weights b.bonds weights.weights
      hlen hcov
  refine ⟨{ bonds := rs }, ?_, hrsl, ?_, hrspos⟩
  · simp only [BondMatrix.update_ema, hrs]
    rfl
  · intro i j hi hj
    rw [hrsval i j hi hj, max_comm]

/-- C3 witness: a 1×1 bond matrix with previous bond 0.5, weight 0.8,
α = 0.5, penalty 0.5 and consensus weight 0.8 updates to 0.65 ≥ 0. -/
theorem bond_update_ema_spec_witness :
    (⟨[[1/2]]⟩ : BondMatrix).bonds.length ≤ (⟨[[4/5]]⟩ : WeightMatrix).weights.length ∧
    (∃ b', (⟨[[1/2]]⟩ : BondMatrix).update_ema ⟨[[4/5]]⟩ (1/2) (1/2) [4/5] = some b' ∧
      b'.bonds.length = (⟨[[1/2]]⟩ : BondMatrix).bonds.length ∧
      (∀ i j, i < (⟨[[1/2]]⟩ : BondMatrix).bonds.length →
        j < ((⟨[[1/2]]⟩ : BondMatrix).bonds.getD i []).length →
        (b'.bonds.getD i []).getD j 0 =
          max 0 ((1/2) * ((⟨[[4/5]]⟩ : WeightMatrix).weights.getD i []).getD j 0
            + (1 - 1/2) * ((⟨[[1/2]]⟩ : BondMatrix).bonds.getD i []).getD j 0
            - (1/2) * |((⟨[[4/5]]⟩ : WeightMatrix).weights.getD i []).getD j 0
                - ([4/5] : List ℚ).getD j 0|)) ∧
      (∀ row ∈ b'.bonds, ∀ x ∈ row, 0 ≤ x)) :=
  ⟨by simp,
   bond_update_ema_spec ⟨[[1/2]]⟩ ⟨[[4/5]]⟩ (1/2) (1/2) [4/5] (by simp)
     (by intro i hi
         simp only [List.length_cons, List.length_nil] at hi
         have h0 : i = 0 := by omega
         subst h0; simp)⟩

/-- Helper: an id-keyed `find?` passes unchanged through the removal of
a different key. -/
theorem find_filter_ne (m : List (ℕ × Polyp)) (k i : ℕ) (hne : i ≠ k) :
    (m.filter (fun kv => kv.1 ≠ k)).find? (fun kv => kv.1 = i) =
      m.find? (fun kv => kv.1 = i) := by
  induction m with
  | nil => rfl
  | cons a l ih =>
      by_cases hak : a.1 = k
      · have hai : ¬ (a.1 = i) := by rw [hak]; exact fun h => hne h.symm
        rw [List.filter_cons_of_neg (by simpa using hak), ih,
          List.find?_cons_of_neg _ (by simpa using hai)]
      · by_cases hai : a.1 = i
        · rw [List.filter_cons_of_pos (by simpa using hak),
            List.find?_cons_of_pos _ (by simpa using hai),
            List.find?_cons_of_pos _ (by simpa using hai)]
        · rw [List.filter_cons_of_pos (by simpa using hak),
            List.find?_cons_of_neg _ (by simpa using hai), ih,
            List.find?_cons_of_neg _ (by simpa using hai)]

/-- Helper: a primary-record `put` overwrites lookups at its own key and
leaves the others alone. -/
theorem get_put (m : List (ℕ × Polyp)) (k i : ℕ) (v : Polyp) :
    ((putPrimary k v m).find? (fun kv => kv.1 = i)).map (fun kv => kv.2) =
      if i = k then some v
      else (m.find? (fun kv => kv.1 = i)).map (fun kv => kv.2) := by
  by_cases h : i = k
  · subst h
    rw [putPrimary, List.find?_cons_of_pos _ (by simp), if_pos rfl]
    rfl
  · have hk : ¬ (k = i) := fun hh => h hh.symm
    rw [putPrimary, List.find?_cons_of_neg _ (by simpa using hk),
      find_filter_ne m k i h, if_neg h]

/-- Helper: a primary-record `delete` empties lookups at its own key and
leaves the others alone. -/
theorem get_del (m : List (ℕ × Polyp)) (k i : ℕ) :
    ((delPrimary k m).find? (fun kv => kv.1 = i)).map (fun kv => kv.2) =
      if i = k then none
      else (m.find? (fun kv => kv.1 = i)).map (fun kv => kv.2) := by
  by_cases h : i = k
  · subst h
    rw [delPrimary, if_pos rfl]
    have hnone : (m.filter (fun kv => kv.1 ≠ i)).find? (fun kv => kv.1 = i) = none := by
      rw [List.find?_eq_none]
      intro x hx
      have := (List.mem_filter.mp hx).2
      simpa using this
    rw [hnone]
    rfl
  · rw [delPrimary, find_filter_ne m k i h, if_neg h]

/-- Helper: membership in the index after writing an entry. -/
theorem mem_putIndex (t : String) (i : ℕ) (ix : List (String × ℕ)) (e : String × ℕ) :
    e ∈ putIndex t i ix ↔ e = (t, i) ∨ e ∈ ix := by
  by_cases h : e = (t, i)
  · subst h; simp [putIndex]
  · simp [putIndex, List.mem_filter, h]

/-- Helper: membership in the index after deleting an entry. -/
theorem mem_delIndex (t : String) (i : ℕ) (ix : List (String × ℕ)) (e : String × ℕ) :
    e ∈ delIndex t i ix ↔ e ∈ ix ∧ e ≠ (t, i) := by
  simp [delIndex, List.mem_filter]

/-- Helper: `get_polyp` after a save reads back the saved capsule at its
id and is untouched elsewhere. -/
theorem get_polyp_save (s : StoreState) (p : Polyp) (i : ℕ) :
    (s.save_polyp p).get_polyp i = if i = p.id then some p else s.get_polyp i := by
  have hprim : (s.save_polyp p).primary = putPrimary p.id p s.primary := by
    rw [StoreState.save_polyp]
    rcases s.get_polyp p.id with _ | ex
    · rfl
    · dsimp only
      split <;> rfl
  rw [StoreState.get_polyp, hprim, get_put]
  rfl

/-- Helper: `get_polyp` after a delete is `none` at the deleted id and
untouched elsewhere. -/
theorem get_polyp_delete (s : StoreState) (k i : ℕ) :
    (s.delete_polyp k).get_polyp i = if i = k then none else s.get_polyp i := by
  have hprim : (s.delete_polyp k).primary = delPrimary k s.primary := by
    rw [StoreState.delete_polyp]
    rcases s.get_polyp k with _ | ex <;> rfl
  rw [StoreState.get_polyp, hprim, get_del]
  rfl

/-- Helper: a successful `get_polyp` returns a capsule stored under its
own id whenever the invariant holds. -/
theorem get_polyp_id (s : StoreState) (hs : StoreInv s) (i : ℕ) (p : Polyp)
    (h : s.get_polyp i = some p) : p.id = i := by
  obtain ⟨hid, _⟩ := hs
  rw [StoreState.get_polyp] at h
  rcases hfind : s.primary.find? (fun kv => kv.1 = i) with _ | kv
  · rw [hfind] at h; exact absurd h (by simp)
  · rw [hfind] at h
    have hkv : kv.2 = p := by simpa using h
    have hmem := List.mem_of_find?_eq_some hfind
    have hkey : kv.1 = i := by
      have := List.find?_some hfind
      simpa using this
    rw [← hkv, hid kv hmem, hkey]

/-- Helper: `save_polyp` preserves the store invariant. -/
theorem storeInv_save (s : StoreState) (hs : StoreInv s) (p : Polyp) :
    StoreInv (s.save_polyp p) := by
  obtain ⟨hid, hix⟩ := hs
  have hget := get_polyp_save s p
  constructor
  · -- primary ids
    intro kv hkv
    have hprim : (s.save_polyp p).primary = putPrimary p.id p s.primary := by
      rw [StoreState.save_polyp]
      rcases s.get_polyp p.id with _ | ex
      · rfl
      · dsimp only
        split <;> rfl
    rw [hprim, putPrimary] at hkv
    rcases List.mem_cons.mp hkv with h | h
    · rw [h]
    · exact hid kv (List.mem_of_mem_filter h)
  · -- index characterization
    intro e
    obtain ⟨t, i⟩ := e
    -- the index of the saved store
    have hixsave : ∀ t' i', ((t', i') ∈ (s.save_polyp p).index ↔
        ((t', i') = (state_tag p.state, p.id) ∨
          ((t', i') ∈ s.index ∧
            (∀ ex, s.get_polyp p.id = some ex → ex.state ≠ p.state →
              (t', i') ≠ (state_tag ex.state, p.id))))) := by
      intro t' i'
      rw [StoreState.save_polyp]
      rcases hg : s.get_polyp p.id with _ | ex
      · dsimp only
        rw [StoreState.store_polyp_inner]
        simp only [mem_putIndex]
        constructor
        · rintro (h | h)
          · exact Or.inl h
          · exact Or.inr ⟨h, fun ex hex => absurd hex (by simp)⟩
        · rintro (h | ⟨h, _⟩)
          · exact Or.inl h
          · exact Or.inr h
      · dsimp only
        by_cases hst : ex.state = p.state
        · rw [if_neg (by simpa using hst)]
          rw [StoreState.store_polyp_inner]
          simp only [mem_putIndex]
          constructor
          · rintro (h | h)
            · exact Or.inl h
            · exact Or.inr ⟨h, fun ex' hex' hne' => by
                have : ex = ex' := by simpa using hex'
                exact absurd (this ▸ hst) hne'⟩
          · rintro (h | ⟨h, _⟩)
            · exact Or.inl h
            · exact Or.inr h
        · rw [if_pos (by simpa using hst)]
          rw [StoreState.store_polyp_inner, StoreState.remove_state_index]
          simp only [mem_putIndex, mem_delIndex]
          constructor
          · rintro (h | ⟨h1, h2⟩)
            · exact Or.inl h
            · refine Or.inr ⟨h1, fun ex' hex' _ => ?_⟩
              have : ex = ex' := by simpa using hex'
              exact this ▸ h2
          · rintro (h | ⟨h1, h2⟩)
            · exact Or.inl h
            · exact Or.inr ⟨h1, h2 ex rfl hst⟩
    rw [hixsave t i]
    dsimp only
    by_cases hi : i = p.id
    · subst hi
      rw [hget p.id, if_pos rfl]
      constructor
      · rintro (h | ⟨h1, h2⟩)
        · have ht : t = state_tag p.state := by
            have := congrArg Prod.fst h; simpa using this
          exact ⟨p, rfl, ht.symm⟩
        · -- an old index entry at the same id
          obtain ⟨q, hq, hqt⟩ := (hix (t, p.id)).mp h1
          have hqt' : state_tag q.state = t := by simpa using hqt
          by_cases hqst : q.state = p.state
          · exact ⟨p, rfl, by rw [← hqt', hqst]⟩
          · exact absurd (by rw [hqt']) (h2 q hq hqst)
      · rintro ⟨q, hq, hqt⟩
        have hqp : q = p := by
          have := hq.symm
          simpa using this
        subst hqp
        exact Or.inl (by rw [← hqt])
    · rw [hget i, if_neg hi]
      constructor
      · rintro (h | ⟨h1, _⟩)
        · exact absurd (by simpa using congrArg Prod.snd h) hi
        · obtain ⟨q, hq, hqt⟩ := (hix (t, i)).mp h1
          exact ⟨q, hq, hqt⟩
      · rintro ⟨q, hq, hqt⟩
        refine Or.inr ⟨(hix (t, i)).mpr ⟨q, hq, hqt⟩, fun ex hex hne hpair => ?_⟩
        exact hi (by simpa using congrArg Prod.snd hpair)

/-- Helper: `delete_polyp` preserves the store invariant. -/
theorem storeInv_delete (s : StoreState) (hs : StoreInv s) (k : ℕ) :
    StoreInv (s.delete_polyp k) := by
  obtain ⟨hid, hix⟩ := hs
  have hget := get_polyp_delete s k
  constructor
  · intro kv hkv
    have hprim : (s.delete_polyp k).primary = delPrimary k s.primary := by
      rw [StoreState.delete_polyp]
      rcases s.get_polyp k with _ | ex <;> rfl
    rw [hprim, delPrimary] at hkv
    exact hid kv (List.mem_of_mem_filter hkv)
  · intro e
    obtain ⟨t, i⟩ := e
    have hixdel : ((t, i) ∈ (s.delete_polyp k).index ↔
        ((t, i) ∈ s.index ∧
          (∀ ex, s.get_polyp k = some ex → (t, i) ≠ (state_tag ex.state, k)))) := by
      rw [StoreState.delete_polyp]
      rcases hg : s.get_polyp k with _ | ex
      · dsimp only
        exact ⟨fun h => ⟨h, fun ex hex => absurd hex (by simp)⟩,
          fun ⟨h, _⟩ => h⟩
      · dsimp only
        rw [StoreState.remove_state_index]
        simp only [mem_delIndex]
        constructor
        · rintro ⟨h1, h2⟩
          refine ⟨h1, fun ex' hex' => ?_⟩
          have : ex = ex' := by simpa using hex'
          exact this ▸ h2
        · rintro ⟨h1, h2⟩
          exact ⟨h1, h2 ex rfl⟩
    rw [hixdel]
    dsimp only
    by_cases hi : i = k
    · subst hi
      constructor
      · rintro ⟨h1, h2⟩
        obtain ⟨q, hq, hqt⟩ := (hix (t, i)).mp h1
        have hqt' : state_tag q.state = t := by simpa using hqt
        exact absurd (by rw [hqt']) (h2 q hq)
      · rintro ⟨q, hq, _⟩
        rw [hget i, if_pos rfl] at hq
        exact absurd hq (by simp)
    · rw [hget i, if_neg hi]
      constructor
      · rintro ⟨h1, _⟩
        obtain ⟨q, hq, hqt⟩ := (hix (t, i)).mp h1
        exact ⟨q, hq, hqt⟩
      · rintro ⟨q, hq, hqt⟩
        exact ⟨(hix (t, i)).mpr ⟨q, hq, hqt⟩,
          fun ex hex hpair => hi (by simpa using congrArg Prod.snd hpair)⟩

/-- Helper: the invariant holds after any operation sequence from the
empty store. -/
theorem storeInv_runOps (ops : List StoreOp) :
    ∀ s : StoreState, StoreInv s → StoreInv (runOps ops s) := by
  induction ops with
  | nil => intro s hs; exact hs
  | cons op rest ih =>
      intro s hs
      cases op with
      | save p => exact ih (s.save_polyp p) (storeInv_save s hs p)
      | del k => exact ih (s.delete_polyp k) (storeInv_delete s hs k)

/-- Helper: the empty store satisfies the invariant. -/
theorem storeInv_empty : StoreInv StoreState.empty := by
  constructor
  · intro kv hkv; exact absurd hkv (List.not_mem_nil kv)
  · intro e
    constructor
    · intro h; exact absurd h (List.not_mem_nil e)
    · rintro ⟨q, hq, _⟩
      rw [StoreState.empty, StoreState.get_polyp] at hq
      exact absurd hq (by simp)

/-- Helper: under the invariant, `list_polyps_by_state` returns exactly
the stored capsules whose state tag matches the queried state's tag. -/
theorem mem_list_by_state (s : StoreState) (hs : StoreInv s) (st : PolypState)
    (p : Polyp) :
    p ∈ s.list_polyps_by_state st ↔
      s.get_polyp p.id = some p ∧ state_tag p.state = state_tag st := by
  obtain ⟨hid, hix⟩ := hs
  rw [StoreState.list_polyps_by_state]
  rw [List.mem_filterMap]
  constructor
  · rintro ⟨e, he, hgete⟩
    have hef := List.mem_filter.mp he
    obtain ⟨q, hq, hqt⟩ := (hix e).mp hef.1
    have hqp : q = p := by rw [hq] at hgete; simpa using hgete
    have hq' : s.get_polyp e.2 = some p := by rw [← hqp]; exact hq
    have hqt' : state_tag p.state = e.1 := by rw [← hqp]; exact hqt
    have hpi : p.id = e.2 := get_polyp_id s ⟨hid, hix⟩ e.2 p hq'
    refine ⟨by rw [hpi]; exact hq', ?_⟩
    rw [hqt']
    exact of_decide_eq_true hef.2
  · rintro ⟨hp, htag⟩
    refine ⟨(state_tag p.state, p.id), ?_, hp⟩
    rw [List.mem_filter]
    exact ⟨(hix (state_tag p.state, p.id)).mpr ⟨p, hp, rfl⟩, by simpa using htag⟩

/-- C4 (amended): over any sequence of saves and deletes from the empty
store, `list_by_state s` returns exactly the capsules whose most
recently saved state has the same state *tag* as `s` (the index tag
identifies all `Molted` states); consequently no capsule is listed under
two states with distinct tags, and every stored capsule is listed under
its current state. -/
theorem list_by_state_exact (ops : List StoreOp) (st : PolypState) (p : Polyp) :
    (p ∈ (runOps ops StoreState.empty).list_polyps_by_state st ↔
      (runOps ops StoreState.empty).get_polyp p.id = some p ∧
        state_tag p.state = state_tag st) ∧
    (∀ st2 : PolypState, state_tag st2 ≠ state_tag st →
      p ∈ (runOps ops StoreState.empty).list_polyps_by_state st →
      p ∉ (runOps ops StoreState.empty).list_polyps_by_state st2) ∧
    ((runOps ops StoreState.empty).get_polyp p.id = some p →
      p ∈ (runOps ops StoreState.empty).list_polyps_by_state p.state) := by
  have hinv := storeInv_runOps ops StoreState.empty storeInv_empty
  have hchar := mem_list_by_state (runOps ops StoreState.empty) hinv
  refine ⟨hchar st p, ?_, ?_⟩
  · intro st2 hne h1 h2
    have t1 := ((hchar st p).mp h1).2
    have t2 := ((hchar st2 p).mp h2).2
    exact hne (by rw [← t1, ← t2])
  · intro hp
    exact (hchar p.state p).mpr ⟨hp, rfl⟩

/-- C4 counterexample to the claim as stated: the state index collapses
all `Molted` states to one tag, so after saving a capsule molted to
successor 1, listing by `Molted 2` returns that capsule even though its
most recently saved state is not `Molted 2`. -/
theorem list_by_state_molted_counterexample :
    moltedPolyp ∈ (runOps [StoreOp.save moltedPolyp]
        StoreState.empty).list_polyps_by_state (PolypState.Molted 2) ∧
    moltedPolyp.state ≠ PolypState.Molted 2 := by
  constructor
  · have := (list_by_state_exact [StoreOp.save moltedPolyp]
        (PolypState.Molted 2) moltedPolyp).1
    refine this.mpr ⟨?_, rfl⟩
    rw [runOps, runOps, get_polyp_save, if_pos rfl]
  · intro h
    have : (1 : ℕ) = 2 := by
      have := congrArg (fun st => match st with
        | PolypState.Molted k => k
        | _ => 0) h
      simpa [moltedPolyp, samplePolyp] using this
    exact absurd this (by norm_num)

/-- C4 witness: a freshly saved draft capsule is stored and listed under
`Draft`. -/
theorem list_by_state_exact_witness :
    (runOps [StoreOp.save samplePolyp] StoreState.empty).get_polyp
        samplePolyp.id = some samplePolyp ∧
    samplePolyp ∈ (runOps [StoreOp.save samplePolyp]
        StoreState.empty).list_polyps_by_state PolypState.Draft := by
  have hget : (runOps [StoreOp.save samplePolyp] StoreState.empty).get_polyp
      samplePolyp.id = some samplePolyp := by
    rw [runOps, runOps, get_polyp_save, if_pos rfl]
  refine ⟨hget, ?_⟩
  have := (list_by_state_exact [StoreOp.save samplePolyp]
      PolypState.Draft samplePolyp).2.2
  exact this hget

/-! ## Shared list-arithmetic helpers -/

/-- Helper: bridge a list sum over `range n` to the `Finset` sum. -/
theorem sum_range_map (f : ℕ → ℚ) (n : ℕ) :
    ((List.range n).map f).sum = ∑ j ∈ Finset.range n, f j := by
  induction n with
  | zero => simp
  | succ n ih =>
      rw [List.range_succ, List.map_append, List.sum_append, Finset.sum_range_succ, ih]
      simp

/-- Helper: dividing a list elementwise divides its sum. -/
theorem sum_map_div (l : List ℚ) (c : ℚ) :
    (l.map (fun x => x / c)).sum = l.sum / c := by
  induction l with
  | nil => simp
  | cons a l ih => simp [ih, add_div]

/-- Helper: summing `getD` over all in-range indices gives the list sum. -/
theorem sum_getD_range (l : List ℚ) :
    ∑ j ∈ Finset.range l.length, l.getD j 0 = l.sum := by
  induction l with
  | nil => simp
  | cons a l ih =>
      rw [List.length_cons, Finset.sum_range_succ']
      simp only [List.getD_cons_succ, List.getD_cons_zero]
      rw [ih, List.sum_cons]
      ring

/-- Helper: reading every in-range index with `getD` rebuilds the list. -/
theorem map_getD_range (l : List ℚ) :
    (List.range l.length).map (fun i => l.getD i 0) = l := by
  induction l with
  | nil => simp
  | cons a l ih =>
      rw [List.length_cons, List.range_succ_eq_map, List.map_cons, List.map_map]
      simp only [List.getD_cons_zero]
      have hcomp : ((fun i => (a :: l).getD i 0) ∘ (fun i => i + 1)) =
          (fun i => l.getD i 0) := by
        funext i
        simp [List.getD_cons_succ]
      rw [hcomp, ih]

/-- Helper: every entry of a replicated zero matrix reads as 0. -/
theorem getD_replicate_zero (a c i j : ℕ) :
    ((List.replicate a (List.replicate c (0:ℚ))).getD i []).getD j 0 = 0 := by
  have houter : (List.replicate a (List.replicate c (0:ℚ))).getD i [] =
      if i < a then List.replicate c (0:ℚ) else [] := by
    rw [List.getD_eq_getElem?_getD, List.getElem?_replicate]
    split <;> rfl
  rw [houter]
  split
  · rw [List.getD_eq_getElem?_getD, List.getElem?_replicate]
    split <;> rfl
  · rfl

/-! ## Yuma consensus: shape and distribution facts -/

/-- Helper: stake normalization preserves the length. -/
theorem normStakes_length (stakes : List ℕ) :
    (normStakes stakes).length = stakes.length := by
  simp only [normStakes]
  split <;> simp

/-- Helper: with positive total stake the normalized stakes sum to 1. -/
theorem normStakes_sum (stakes : List ℕ)
    (h : 0 < (stakes.map (fun (s : ℕ) => (s : ℚ))).sum) :
    (normStakes stakes).sum = 1 := by
  simp only [normStakes]
  rw [if_pos h]
  have hmm : stakes.map (fun (s : ℕ) => (s : ℚ) / (stakes.map (fun (s : ℕ) => (s : ℚ))).sum) =
      (stakes.map (fun (s : ℕ) => (s : ℚ))).map
        (fun x => x / (stakes.map (fun (s : ℕ) => (s : ℚ))).sum) := by
    rw [List.map_map]
    rfl
  rw [hmm, sum_map_div, div_self (ne_of_gt h)]

/-- Helper: row normalization preserves the matrix shape. -/
theorem normWeights_length (weights : List (List ℚ)) :
    (normWeights weights).length = weights.length := by
  simp [normWeights]

/-- Helper: every row of the normalized matrix retains its row's length. -/
theorem normWeights_row_length (weights : List (List ℚ)) (row : List ℚ)
    (h : row ∈ normWeights weights) : ∃ row0 ∈ weights, row.length = row0.length := by
  rw [normWeights] at h
  obtain ⟨row0, hrow0, hf⟩ := List.mem_map.mp h
  refine ⟨row0, hrow0, ?_⟩
  rw [← hf]
  split <;> simp

/-- Helper: on a well-shaped weight matrix the index-panic guard passes
and `yuma_semantic_consensus` returns the assembled result. -/
theorem yuma_eq_some_of_shape (stakes : List ℕ) (weights prev_bonds : List (List ℚ))
    (kappa bond_penalty alpha : ℚ)
    (hne : stakes ≠ [])
    (hrows : weights.length = stakes.length)
    (hcols : ∀ row ∈ weights, row.length = nCorals weights) :
    yuma_semantic_consensus stakes weights prev_bonds kappa bond_penalty alpha =
      some (yumaResult stakes weights prev_bonds kappa bond_penalty alpha) := by
  rw [yuma_semantic_consensus]
  rw [if_neg (by simpa [List.length_eq_zero] using hne)]
  rw [if_neg ?_]
  rintro ⟨-, hb⟩
  refine hb ⟨by rw [normWeights_length, hrows], ?_⟩
  intro row hrow
  obtain ⟨row0, hrow0, hl⟩ := normWeights_row_length weights row
    (List.mem_of_mem_take hrow)
  rw [hl, hcols row0 hrow0]

/-- C2 (amended): for every non-empty stakes vector and weight matrix
with one row per validator and uniform row length, the consensus returns
without a panic; the weight/incentive vectors have length `n_corals`,
the dividend vector and bond matrix have one entry per validator, the
incentive and dividend sums are each 0 or 1, every bond entry is ≥ 0,
and an empty (shape-mismatched) `prev_bonds` behaves exactly like the
zero matrix. -/
theorem yuma_consensus_safety (stakes : List ℕ) (weights prev_bonds : List (List ℚ))
    (kappa bond_penalty alpha : ℚ)
    (hne : stakes ≠ [])
    (hrows : weights.length = stakes.length)
    (hcols : ∀ row ∈ weights, row.length = nCorals weights) :
    ∃ r, yuma_semantic_consensus stakes weights prev_bonds kappa bond_penalty alpha =
        some r ∧
      r.consensus_weights.length = nCorals weights ∧
      r.incentives.length = nCorals weights ∧
      r.dividends.length = stakes.length ∧
      r.bonds.length = stakes.length ∧
      (r.incentives.sum = 0 ∨ r.incentives.sum = 1) ∧
      (r.dividends.sum = 0 ∨ r.dividends.sum = 1) ∧
      (∀ row ∈ r.bonds, ∀ x ∈ row, 0 ≤ x) ∧
      yuma_semantic_consensus stakes weights [] kappa bond_penalty alpha =
        yuma_semantic_consensus stakes weights
          (List.replicate stakes.length (List.replicate (nCorals weights) 0))
          kappa bond_penalty alpha := by
  refine ⟨yumaResult stakes weights prev_bonds kappa bond_penalty alpha,
    yuma_eq_some_of_shape stakes weights prev_bonds kappa bond_penalty alpha
      hne hrows hcols, ?_, ?_, ?_, ?_, ?_, ?_, ?_, ?_⟩
  · simp [yumaResult, consensusWeightsDef]
  · simp only [yumaResult, incentivesDef]
    split
    · simp [consensusWeightsDef]
    · simp
  · simp only [yumaResult, dividendsDef]
    split
    · simp [rawDividendsDef]
    · simp
  · simp [yumaResult, bondsDef]
  · -- incentive sum is 0 or 1
    simp only [yumaResult, incentivesDef]
    split
    · right
      rw [sum_map_div, div_self]
      exact ne_of_gt (by assumption)
    · left
      simp
  · -- dividend sum is 0 or 1
    simp only [yumaResult, dividendsDef]
    split
    · right
      rw [sum_map_div, div_self]
      exact ne_of_gt (by assumption)
    · left
      simp
  · -- bond entries are nonnegative
    simp only [yumaResult]
    intro row hrow x hx
    rw [bondsDef] at hrow
    obtain ⟨i, _, hrowi⟩ := List.mem_map.mp hrow
    rw [← hrowi] at hx
    obtain ⟨j, _, hxj⟩ := List.mem_map.mp hx
    rw [← hxj]
    exact le_max_right _ 0
  · -- empty prev_bonds behaves as the zero matrix
    have hbonds : bondsDef stakes weights [] kappa bond_penalty alpha =
        bondsDef stakes weights
          (List.replicate stakes.length (List.replicate (nCorals weights) 0))
          kappa bond_penalty alpha := by
      rw [bondsDef, bondsDef]
      refine List.map_congr_left ?_
      intro i _
      refine List.map_congr_left ?_
      intro j _
      rw [getD_replicate_zero]
      simp [List.getD]
    rw [yuma_eq_some_of_shape stakes weights [] kappa bond_penalty alpha hne hrows hcols,
      yuma_eq_some_of_shape stakes weights _ kappa bond_penalty alpha hne hrows hcols]
    simp only [yumaResult, dividendsDef, rawDividendsDef, hbonds]

/-- C2 counterexample to the claim as stated: two validators but a
single weight row — the source indexes `norm_weights[1][0]` out of
bounds and panics, so no result vectors are produced at all. -/
theorem yuma_ragged_weights_counterexample :
    yuma_semantic_consensus [1, 1] [[1/2]] [] (1/2) (1/10) (1/10) = none := by
  rw [yuma_semantic_consensus]
  rw [if_neg (by norm_num)]
  rw [if_pos ?_]
  refine ⟨by norm_num [nCorals], ?_⟩
  rintro ⟨hlen, -⟩
  rw [normWeights_length] at hlen
  norm_num at hlen

/-- C2 witness: one validator with a positive stake and one weight row
of two corals. -/
theorem yuma_consensus_safety_witness :
    ([1] : List ℕ) ≠ [] ∧
    ([[1/2, 1/2]] : List (List ℚ)).length = ([1] : List ℕ).length ∧
    (∀ row ∈ ([[1/2, 1/2]] : List (List ℚ)), row.length = nCorals [[1/2, 1/2]]) ∧
    (∃ r, yuma_semantic_consensus [1] [[1/2, 1/2]] [] (1/2) (1/10) (1/10) = some r ∧
      r.consensus_weights.length = nCorals [[1/2, 1/2]] ∧
      r.incentives.length = nCorals [[1/2, 1/2]] ∧
      r.dividends.length = ([1] : List ℕ).length ∧
      r.bonds.length = ([1] : List ℕ).length ∧
      (r.incentives.sum = 0 ∨ r.incentives.sum = 1) ∧
      (r.dividends.sum = 0 ∨ r.dividends.sum = 1) ∧
      (∀ row ∈ r.bonds, ∀ x ∈ row, 0 ≤ x) ∧
      yuma_semantic_consensus [1] [[1/2, 1/2]] [] (1/2) (1/10) (1/10) =
        yuma_semantic_consensus [1] [[1/2, 1/2]]
          (List.replicate ([1] : List ℕ).length
            (List.replicate (nCorals [[1/2, 1/2]]) 0))
          (1/2) (1/10) (1/10)) :=
  ⟨by simp, by simp, by norm_num [nCorals],
   yuma_consensus_safety [1] [[1/2, 1/2]] [] (1/2) (1/10) (1/10)
     (by simp) (by simp) (by norm_num [nCorals])⟩

/-- Helper: enumerating `range n` pairs each index with itself. -/
theorem enum_range (n : ℕ) :
    (List.range n).enum = (List.range n).map (fun i => (i, i)) := by
  apply List.ext_getElem
  · simp
  · intro i h1 h2
    simp [List.getElem_enum, List.getElem_range]

/-- C10: `yuma_semantic_consensus` always returns an empty
`hardened_polyp_ids` list; the approval decision is made downstream in
`run_epoch_consensus`, which keeps exactly the re-listed UnderReview
capsule at each index `j` with `consensus_weights[j] > 0.3`. -/
theorem consensus_hardening_deferred :
    (∀ (stakes : List ℕ) (weights prev_bonds : List (List ℚ))
        (kappa bond_penalty alpha : ℚ) (r : ConsensusResult),
      yuma_semantic_consensus stakes weights prev_bonds kappa bond_penalty alpha =
        some r → r.hardened_polyp_ids = []) ∧
    (∀ (n : ℕ) (cw : List ℚ) (j : ℕ),
      j ∈ approvedPolyps (List.range n) cw ↔
        j < n ∧ j < cw.length ∧ APPROVAL_THRESHOLD < cw.getD j 0) := by
  constructor
  · intro stakes weights prev_bonds kappa bond_penalty alpha r h
    rw [yuma_semantic_consensus] at h
    split at h
    · rw [← Option.some.inj h]
    · split at h
      · exact absurd h (by simp)
      · rw [← Option.some.inj h]
        rfl
  · intro n cw j
    rw [approvedPolyps, enum_range, List.filterMap_map, List.mem_filterMap]
    constructor
    · rintro ⟨i, hi, hif⟩
      dsimp only [Function.comp] at hif
      by_cases hc : i < cw.length ∧ APPROVAL_THRESHOLD < cw.getD i 0
      · rw [if_pos hc] at hif
        have hij : i = j := Option.some.inj hif
        subst hij
        exact ⟨List.mem_range.mp hi, hc.1, hc.2⟩
      · rw [if_neg hc] at hif
        exact absurd hif (by simp)
    · rintro ⟨hjn, hjl, hjt⟩
      refine ⟨j, List.mem_range.mpr hjn, ?_⟩
      dsimp only [Function.comp]
      rw [if_pos ⟨hjl, hjt⟩]

/-- C10 witness: the empty-input consensus result carries no hardened
polyp ids, and index 0 of a one-capsule UnderReview listing is approved
at consensus weight 0.5 > 0.3. -/
theorem consensus_hardening_deferred_witness :
    (yuma_semantic_consensus [] [] [] 0 0 0 =
        some { consensus_weights := [], incentives := [], dividends := [],
               bonds := [], hardened_polyp_ids := [] } ∧
      ({ consensus_weights := [], incentives := [], dividends := [],
         bonds := [], hardened_polyp_ids := [] } :
          ConsensusResult).hardened_polyp_ids = []) ∧
    ((0 : ℕ) < 1 ∧ (0 : ℕ) < ([1/2] : List ℚ).length ∧
      APPROVAL_THRESHOLD < ([1/2] : List ℚ).getD 0 0 ∧
      (0 : ℕ) ∈ approvedPolyps (List.range 1) [1/2]) :=
  ⟨⟨rfl, consensus_hardening_deferred.1 [] [] [] 0 0 0
      { consensus_weights := [], incentives := [], dividends := [],
        bonds := [], hardened_polyp_ids := [] } rfl⟩,
   by norm_num, by norm_num, by norm_num [APPROVAL_THRESHOLD],
   (consensus_hardening_deferred.2 1 [1/2] 0).mpr
     ⟨by norm_num, by norm_num, by norm_num [APPROVAL_THRESHOLD]⟩⟩

/-- Helper: reading every in-range index of a pair list's weights. -/
theorem getD_map_range (f : ℕ → ℚ) (n j : ℕ) (h : j < n) :
    ((List.range n).map f).getD j 0 = f j := by
  rw [List.getD_eq_getElem?_getD, List.getElem?_map, List.getElem?_range h]
  rfl

/-- Helper: the cumulative-stake walk of yuma.rs stops exactly at the
first position whose inclusive prefix stake reaches `kappa`, and returns
that position's weight — provided the whole list reaches `kappa`. -/
theorem medianWalk_first_cross (kappa : ℚ) :
    ∀ (l : List (ℚ × ℚ)) (c m : ℚ), l ≠ [] →
      kappa ≤ c + (l.map Prod.snd).sum →
      ∃ k, ∃ hk : k < l.length,
        kappa ≤ c + ((l.take (k+1)).map Prod.snd).sum ∧
        (∀ k2 < k, c + ((l.take (k2+1)).map Prod.snd).sum < kappa) ∧
        medianWalk kappa l c m = (l.get ⟨k, hk⟩).1 := by
  intro l
  induction l with
  | nil => intro c m h _; exact absurd rfl h
  | cons ws rest ih =>
      intro c m _ hsum
      obtain ⟨w, s⟩ := ws
      by_cases hcross : kappa ≤ c + s
      · refine ⟨0, Nat.succ_pos _, ?_, ?_, ?_⟩
        · simpa using hcross
        · intro k2 hk2; exact absurd hk2 (Nat.not_lt_zero k2)
        · simp only [medianWalk]
          rw [if_pos hcross]
          rfl
      · have hrest : rest ≠ [] := by
          intro hnil
          subst hnil
          simp only [List.map_cons, List.map_nil, List.sum_cons, List.sum_nil,
            add_zero] at hsum
          exact hcross (by linarith)
        have hsum' : kappa ≤ (c + s) + (rest.map Prod.snd).sum := by
          simp only [List.map_cons, List.sum_cons] at hsum
          linarith
        obtain ⟨k, hk, h1, h2, h3⟩ := ih (c + s) w hrest hsum'
        refine ⟨k + 1, Nat.succ_lt_succ hk, ?_, ?_, ?_⟩
        · simp only [List.take_succ_cons, List.map_cons, List.sum_cons]
          linarith
        · intro k2 hk2
          match k2 with
          | 0 =>
              simp only [List.take_succ_cons, List.take_zero, List.map_cons, List.map_nil,
                List.sum_cons, List.sum_nil, add_zero]
              linarith [not_le.mp hcross]
          | k2 + 1 =>
              have := h2 k2 (Nat.lt_of_succ_lt_succ hk2)
              simp only [List.take_succ_cons, List.map_cons, List.sum_cons]
              linarith
        · simp only [medianWalk]
          rw [if_neg hcross]
          exact h3

/-- C1: each consensus weight is the stake-weighted median: sorting the
`(normalized weight, normalized stake)` pairs of coral `j` ascending by
weight, the consensus weight is the weight at the first position whose
cumulative stake reaches `kappa`.  Concretely, stakes `[900, 100]` with
weights `[[0.8, 0.2], [0.2, 0.8]]` and `κ = 0.5` yield consensus weights
exactly `[0.8, 0.2]`. -/
theorem yuma_stake_weighted_median (stakes : List ℕ)
    (weights prev_bonds : List (List ℚ)) (kappa bond_penalty alpha : ℚ)
    (hne : stakes ≠ [])
    (hrows : weights.length = stakes.length)
    (hcols : ∀ row ∈ weights, row.length = nCorals weights)
    (hstake : 0 < (stakes.map (fun (s : ℕ) => (s : ℚ))).sum)
    (hkappa : kappa ≤ 1) :
    (yuma_semantic_consensus stakes weights prev_bonds kappa bond_penalty alpha =
      some (yumaResult stakes weights prev_bonds kappa bond_penalty alpha)) ∧
    (∀ j < nCorals weights,
      ∃ sorted : List (ℚ × ℚ),
        sorted.Perm (coralPairs stakes weights j) ∧
        sorted.Pairwise (fun a b => a.1 ≤ b.1) ∧
        ∃ k, ∃ hk : k < sorted.length,
          kappa ≤ ((sorted.take (k+1)).map Prod.snd).sum ∧
          (∀ k2 < k, ((sorted.take (k2+1)).map Prod.snd).sum < kappa) ∧
          (yumaResult stakes weights prev_bonds kappa bond_penalty alpha
            ).consensus_weights.getD j 0 = (sorted.get ⟨k, hk⟩).1) ∧
    ((yuma_semantic_consensus [900, 100] [[4/5, 1/5], [1/5, 4/5]] [[0, 0], [0, 0]]
        (1/2) 0 (1/2)).map ConsensusResult.consensus_weights = some [4/5, 1/5]) := by
  refine ⟨yuma_eq_some_of_shape stakes weights prev_bonds kappa bond_penalty alpha
    hne hrows hcols, ?_, ?_⟩
  · intro j hj
    haveI htot : IsTotal (ℚ × ℚ) (fun a b => a.1 ≤ b.1) := ⟨fun a b => le_total a.1 b.1⟩
    haveI htr : IsTrans (ℚ × ℚ) (fun a b => a.1 ≤ b.1) :=
      ⟨fun _ _ _ hab hbc => le_trans hab hbc⟩
    refine ⟨sortedCoralPairs stakes weights j,
      List.perm_insertionSort _ _, List.sorted_insertionSort _ _, ?_⟩
    -- total stake of the sorted pairs is 1
    have hmapsnd : (coralPairs stakes weights j).map Prod.snd = normStakes stakes := by
      rw [coralPairs, List.map_map]
      have hcomp : (Prod.snd ∘ fun i =>
          (((normWeights weights).getD i []).getD j 0, (normStakes stakes).getD i 0)) =
          (fun i => (normStakes stakes).getD i 0) := rfl
      rw [hcomp, ← normStakes_length stakes, map_getD_range]
    have hsorted_sum : ((sortedCoralPairs stakes weights j).map Prod.snd).sum = 1 := by
      have hperm : ((sortedCoralPairs stakes weights j).map Prod.snd).Perm
          ((coralPairs stakes weights j).map Prod.snd) :=
        (List.perm_insertionSort _ _).map Prod.snd
      rw [hperm.sum_eq, hmapsnd, normStakes_sum stakes hstake]
    have hlen : (sortedCoralPairs stakes weights j).length = stakes.length := by
      rw [sortedCoralPairs, (List.perm_insertionSort _ _).length_eq, coralPairs]
      simp
    have hnonempty : sortedCoralPairs stakes weights j ≠ [] := by
      intro hnil
      rw [← List.length_eq_zero, hlen, List.length_eq_zero] at hnil
      exact hne hnil
    obtain ⟨k, hk, h1, h2, h3⟩ := medianWalk_first_cross kappa
      (sortedCoralPairs stakes weights j) 0 0 hnonempty
      (by rw [hsorted_sum]; linarith)
    refine ⟨k, hk, by linarith [h1], fun k2 hk2 => by linarith [h2 k2 hk2], ?_⟩
    rw [yumaResult]
    dsimp only
    rw [consensusWeightsDef, getD_map_range _ _ j hj]
    exact h3
  · rw [yuma_eq_some_of_shape [900, 100] [[4/5, 1/5], [1/5, 4/5]] [[0, 0], [0, 0]]
      (1/2) 0 (1/2) (by simp) (by simp) (by norm_num [nCorals])]
    rw [Option.map_some']
    congr 1
    rw [yumaResult]
    dsimp only
    norm_num [consensusWeightsDef, nCorals, coralPairs, sortedCoralPairs,
      normWeights, normStakes, medianWalk, List.insertionSort, List.orderedInsert,
      List.range_succ]

/-- C1 witness: the 90/10 stake split of the claim's example — the
median characterization applied at coral 0. -/
theorem yuma_stake_weighted_median_witness :
    ([900, 100] : List ℕ) ≠ [] ∧
    (0 : ℚ) < (([900, 100] : List ℕ).map (fun (s : ℕ) => (s : ℚ))).sum ∧
    (1/2 : ℚ) ≤ 1 ∧
    ((yuma_semantic_consensus [900, 100] [[4/5, 1/5], [1/5, 4/5]] [[0, 0], [0, 0]]
        (1/2) 0 (1/2)).map ConsensusResult.consensus_weights = some [4/5, 1/5]) :=
  ⟨by simp, by norm_num, by norm_num,
   (yuma_stake_weighted_median [900, 100] [[4/5, 1/5], [1/5, 4/5]] [[0, 0], [0, 0]]
     (1/2) 0 (1/2) (by simp) (by simp) (by norm_num [nCorals]) (by norm_num)
     (by norm_num)).2.2⟩

/-! ## EigenTrust: sum preservation -/

/-- Helper: row normalization yields a length-`n` row of sum 1 (the
positive branch divides through the row sum; the dangling branch is the
uniform `1/n` row). -/
theorem rowNormalize_spec (n : ℕ) (hn : n ≠ 0) (row : List ℚ) (hlen : row.length = n) :
    (rowNormalize n row).length = n ∧ (rowNormalize n row).sum = 1 := by
  rw [rowNormalize]
  split
  · refine ⟨by rw [List.length_map, hlen], ?_⟩
    rw [sum_map_div, div_self]
    exact ne_of_gt (by assumption)
  · refine ⟨List.length_replicate _ _, ?_⟩
    rw [List.sum_replicate, nsmul_eq_mul, mul_one_div, div_self]
    exact_mod_cast hn

/-- Helper: the normalized matrix `C` is square with unit row sums. -/
theorem buildC_rows (tm : TrustMatrix) (uids : List ℕ) (hn : uids.length ≠ 0) :
    (buildC tm uids).length = uids.length ∧
    (∀ row ∈ buildC tm uids, row.length = uids.length ∧ row.sum = 1) := by
  refine ⟨by simp [buildC], ?_⟩
  intro row hrow
  rw [buildC] at hrow
  obtain ⟨i, _, hrowi⟩ := List.mem_map.mp hrow
  rw [← hrowi]
  exact rowNormalize_spec uids.length hn _ (by simp)

/-- Helper: summing the column dot products over all `n` columns of a
unit-row-sum square matrix gives back the total mass of `t`. -/
theorem sum_colDot (n : ℕ) :
    ∀ (c : List (List ℚ)) (t : List ℚ),
      (∀ row ∈ c, row.length = n ∧ row.sum = 1) →
      c.length = t.length →
      (∑ j ∈ Finset.range n, colDot c t j) = t.sum := by
  intro c
  induction c with
  | nil =>
      intro t _ hl
      have ht : t = [] := by
        rw [← List.length_eq_zero]
        simpa using hl.symm
      subst ht
      simp [colDot]
  | cons row crest ih =>
      intro t hrows hl
      match t with
      | [] => simp at hl
      | ti :: trest =>
          have hrow := hrows row (List.mem_cons_self row crest)
          have hrest : ∀ r ∈ crest, r.length = n ∧ r.sum = 1 :=
            fun r hr => hrows r (List.mem_cons_of_mem _ hr)
          have hl' : crest.length = trest.length := by simpa using hl
          calc ∑ j ∈ Finset.range n, colDot (row :: crest) (ti :: trest) j
              = ∑ j ∈ Finset.range n, (row.getD j 0 * ti + colDot crest trest j) :=
                Finset.sum_congr rfl (fun j _ => rfl)
            _ = (∑ j ∈ Finset.range n, row.getD j 0 * ti)
                  + ∑ j ∈ Finset.range n, colDot crest trest j :=
                Finset.sum_add_distrib
            _ = (∑ j ∈ Finset.range n, row.getD j 0) * ti + trest.sum := by
                rw [← Finset.sum_mul, ih trest hrest hl']
            _ = row.sum * ti + trest.sum := by
                rw [← hrow.1, sum_getD_range]
            _ = (ti :: trest).sum := by
                rw [hrow.2, List.sum_cons]
                ring

/-- Helper: one EigenTrust iteration preserves total mass 1 and the
vector length. -/
theorem trustStep_spec (n : ℕ) (alpha : ℚ) (c : List (List ℚ)) (p t : List ℚ)
    (hrows : ∀ row ∈ c, row.length = n ∧ row.sum = 1)
    (hc : c.length = t.length)
    (hp : p.length = n) (hpsum : p.sum = 1) (htsum : t.sum = 1) :
    (trustStep n alpha c p t).length = n ∧ (trustStep n alpha c p t).sum = 1 := by
  refine ⟨by simp [trustStep], ?_⟩
  rw [trustStep, sum_range_map]
  calc ∑ j ∈ Finset.range n, ((1 - alpha) * colDot c t j + alpha * p.getD j 0)
      = (1 - alpha) * (∑ j ∈ Finset.range n, colDot c t j)
          + alpha * (∑ j ∈ Finset.range n, p.getD j 0) := by
        rw [Finset.sum_add_distrib, Finset.mul_sum, Finset.mul_sum]
    _ = (1 - alpha) * t.sum + alpha * p.sum := by
        rw [sum_colDot n c t hrows hc, ← hp, sum_getD_range]
    _ = 1 := by
        rw [htsum, hpsum]
        ring

/-- Helper: the bounded iteration with early convergence exit preserves
total mass 1 and the vector length at every step. -/
theorem trustIterate_spec (n : ℕ) (alpha epsilon : ℚ) (c : List (List ℚ)) (p : List ℚ)
    (hrows : ∀ row ∈ c, row.length = n ∧ row.sum = 1)
    (hclen : c.length = n) (hp : p.length = n) (hpsum : p.sum = 1) :
    ∀ (fuel : ℕ) (t : List ℚ), t.length = n → t.sum = 1 →
      (trustIterate n alpha epsilon c p fuel t).length = n ∧
      (trustIterate n alpha epsilon c p fuel t).sum = 1 := by
  intro fuel
  induction fuel with
  | zero => intro t h1 h2; exact ⟨h1, h2⟩
  | succ fuel ih =>
      intro t h1 h2
      have hstep := trustStep_spec n alpha c p t hrows (by rw [hclen, h1]) hp hpsum h2
      simp only [trustIterate]
      split
      · exact hstep
      · exact ih (trustStep n alpha c p t) hstep.1 hstep.2

/-- C8: whenever the trust matrix has entries, the global trust scores
returned by `compute_global_trust` sum to 1 within `1e-4`: every row of
the normalized matrix sums to 1, so each iteration
`t'[j] = (1−α)·Σᵢ C[i][j]·t[i] + α·p[j]` preserves the unit total mass
of the uniform start vector (here the sum is exactly 1). -/
theorem compute_global_trust_sums_to_one (tm : TrustMatrix)
    (hne : tm.entries ≠ []) :
    |((tm.compute_global_trust).map Prod.snd).sum - 1| ≤ 1/10000 := by
  have huids : tmUids tm ≠ [] := by
    rw [tmUids]
    intro hnil
    have hlen := congrArg List.length hnil
    rw [(List.perm_insertionSort _ _).length_eq, List.length_nil] at hlen
    rw [List.length_eq_zero, List.dedup_eq_nil, List.append_eq_nil] at hlen
    exact hne (List.map_eq_nil_iff.mp hlen.1)
  have hn : (tmUids tm).length ≠ 0 := by
    simpa [List.length_eq_zero] using huids
  simp only [TrustMatrix.compute_global_trust]
  rw [if_neg (by simpa [List.isEmpty_iff] using huids)]
  have hb := buildC_rows tm (tmUids tm) hn
  have hpl : (List.replicate (tmUids tm).length
      ((1 : ℚ) / ((tmUids tm).length : ℚ))).length = (tmUids tm).length :=
    List.length_replicate _ _
  have hps : (List.replicate (tmUids tm).length
      ((1 : ℚ) / ((tmUids tm).length : ℚ))).sum = 1 := by
    rw [List.sum_replicate, nsmul_eq_mul, mul_one_div, div_self]
    exact_mod_cast hn
  have hiter := trustIterate_spec (tmUids tm).length (1/10) (1/100000000)
    (buildC tm (tmUids tm)) _ hb.2 hb.1 hpl hps 100 _ hpl hps
  rw [List.map_snd_zip _ _ (le_of_eq hiter.1), hiter.2]
  norm_num

/-- C8 witness: a single trust edge 1 → 2 yields global scores summing
to 1 within the tolerance. -/
theorem compute_global_trust_sums_to_one_witness :
    (⟨[((1, 2), 1)]⟩ : TrustMatrix).entries ≠ [] ∧
    |(((⟨[((1, 2), 1)]⟩ : TrustMatrix).compute_global_trust).map Prod.snd).sum - 1|
      ≤ 1/10000 :=
  ⟨by simp, compute_global_trust_sums_to_one ⟨[((1, 2), 1)]⟩ (by simp)⟩

end Chitin
